import Mathlib

/-!
# burst: k-way union iterator and counting sort

A shallow embedding of `burst/iterator/union_iterator.hpp` and
`burst/algorithm/sorting/detail/counting_sort.hpp`.

* A range (cursor) is the list of the elements still inside its window:
  `front` is the head, `advance_begin 1` drops the head, `empty` tests for `[]`.
  Calling `front` or `advance_begin 1` on an empty range is undefined in the
  source; here these operations return `none`.
* The state of a `union_iterator` is its member `m_ranges`, a list of ranges.
  The member `m_compare` is fixed at construction and never changes; it is passed
  to every operation as the argument `compare`.
* `BOOST_ASSERT` is compiled out (`NDEBUG`); the asserted condition is `is_sorted`.
-/

namespace burst

variable {α β : Type}

/-! ## Ranges -/

/-- The call `range.front()`: the first element of the window, undefined on an empty range. -/
def front (range : List α) : Option α :=
  match range with
  | [] => none
  | x :: _ => some x

/-- The call `range.empty()`. -/
def empty (range : List α) : Bool :=
  match range with
  | [] => true
  | _ :: _ => false

/-- The call `range.advance_begin(1)`: moves the begin of the window one position forward,
undefined on an empty range. -/
def advance_begin_1 (range : List α) : Option (List α) :=
  match range with
  | [] => none
  | _ :: rest => some rest

/-- The check `boost::algorithm::is_sorted(range, compare)`: no element is strictly less than
its predecessor. -/
def is_sorted (compare : α → α → Bool) : List α → Bool
  | [] => true
  | [_] => true
  | a :: b :: rest => !compare b a && is_sorted compare (b :: rest)

/-- Modelled from the spec: `detail::compare_by_front_value(compare)` from the header
`burst/iterator/detail/front_value_compare.hpp`, which orders two ranges by applying the
comparator to their front values. -/
def compare_by_front_value (compare : α → α → Bool) (left right : List α) : Option Bool :=
  match front left, front right with
  | some a, some b => some (compare a b)
  | _, _ => none

/-! ## Standard algorithms used by the iterator -/

/-- The loop of `std::upper_bound` on the index interval `[first, first + len)` of `xs`:
binary search for the first position whose element `m` satisfies `comp value m`.
The first argument bounds the number of iterations. -/
def upper_bound_loop (comp : β → β → Option Bool) (xs : List β) (value : β) :
    Nat → Nat → Nat → Option Nat
  | 0, first, len => if len = 0 then some first else none
  | fuel + 1, first, len =>
    if len = 0 then some first
    else
      match xs.get? (first + len / 2) with
      | none => none
      | some middle =>
        match comp value middle with
        | none => none
        | some true => upper_bound_loop comp xs value fuel first (len / 2)
        | some false =>
          upper_bound_loop comp xs value fuel (first + len / 2 + 1) (len - len / 2 - 1)

/-- The call `boost::upper_bound(xs, value, comp)`, as an index into `xs`. -/
def upper_bound (comp : β → β → Option Bool) (xs : List β) (value : β) : Option Nat :=
  upper_bound_loop comp xs value xs.length 0 xs.length

/-- Insertion of `a` into a sorted list, behind the elements that are strictly less than it. -/
def ordered_insert (comp : β → β → Option Bool) (a : β) : List β → Option (List β)
  | [] => some [a]
  | b :: rest =>
    match comp b a with
    | none => none
    | some true =>
      match ordered_insert comp a rest with
      | none => none
      | some inserted => some (b :: inserted)
    | some false => some (a :: b :: rest)

/-- The call `std::sort(xs.begin(), xs.end(), comp)`. The standard fixes the result only up to
the order of equivalent elements. The embedding sorts by insertion and so keeps equivalent
elements in the order they had, which is what libstdc++ does for at most 16 elements; for more
elements the order of equivalent elements of the library may be another one. -/
def std_sort (comp : β → β → Option Bool) : List β → Option (List β)
  | [] => some []
  | a :: rest =>
    match std_sort comp rest with
    | none => none
    | some sorted => ordered_insert comp a sorted

/-! ## union_iterator -/

/-- The constructor `union_iterator (ranges, compare)`: keeps the non-empty ranges and sorts
them by front value. The result is the member `m_ranges`. -/
def make_union_iterator (compare : α → α → Bool) (ranges : List (List α)) :
    Option (List (List α)) :=
  std_sort (compare_by_front_value compare) (ranges.filter (fun range => !empty range))

/-- The default constructor, returned by `make_union_iterator (ranges, compare, end_tag)`:
the member `m_ranges` is empty. -/
def make_union_iterator_end : List (List α) := []

/-- The loop `std::for_each(m_ranges.begin(), next_element, advance_begin(1))` on the prefix
of the ranges before `next_element`. -/
def for_each_advance : List (List α) → Option (List (List α))
  | [] => some []
  | range :: rest =>
    match advance_begin_1 range with
    | none => none
    | some advanced =>
      match for_each_advance rest with
      | none => none
      | some others => some (advanced :: others)

/-- The member `union_iterator::increment`. -/
def increment (compare : α → α → Bool) (m_ranges : List (List α)) : Option (List (List α)) :=
  match m_ranges with
  | [] => none
  | first_range :: _ =>
    match upper_bound (compare_by_front_value compare) m_ranges first_range with
    | none => none
    | some next_element =>
      match front first_range with
      | none => none
      | some _ =>
        match for_each_advance (m_ranges.take next_element) with
        | none => none
        | some advanced =>
          std_sort (compare_by_front_value compare)
            ((advanced ++ m_ranges.drop next_element).filter (fun range => !empty range))

/-- The member `union_iterator::dereference`: `m_ranges.front().front()`. -/
def dereference (m_ranges : List (List α)) : Option α :=
  match m_ranges with
  | [] => none
  | first_range :: _ => front first_range

/-- The member `union_iterator::equal`: `this->m_ranges == that.m_ranges`. -/
def equal [DecidableEq α] (this that : List (List α)) : Bool :=
  decide (this = that)

/-- The elements read by `for (; it != end; ++it) yield(*it)`, with a bound on the number of
rounds; `none` when the bound is too small or an undefined operation is reached. -/
def iterate [DecidableEq α] (compare : α → α → Bool) : Nat → List (List α) → Option (List α)
  | 0, it => if equal it make_union_iterator_end then some [] else none
  | fuel + 1, it =>
    if equal it make_union_iterator_end then some []
    else
      match dereference it with
      | none => none
      | some value =>
        match increment compare it with
        | none => none
        | some next =>
          match iterate compare fuel next with
          | none => none
          | some values => some (value :: values)

/-- The number of elements of all input ranges together. -/
def total_size (ranges : List (List α)) : Nat :=
  (ranges.map List.length).sum

/-- The whole output of the union of `ranges`: the iterator is constructed and read until it
equals the end iterator. Every round consumes an element, so `total_size ranges` rounds are
enough. -/
def union_elements [DecidableEq α] (compare : α → α → Bool) (ranges : List (List α)) :
    Option (List α) :=
  match make_union_iterator compare ranges with
  | none => none
  | some it => iterate compare (total_size ranges) it

/-- The default comparator `std::less` on natural numbers. -/
def less (a b : Nat) : Bool := decide (a < b)

/-- A descending comparator, `std::greater`. -/
def greater (a b : Nat) : Bool := decide (b < a)

/-- The state of the iterator after `n` calls of `increment`. -/
def increment_times (compare : α → α → Bool) : Nat → List (List α) → Option (List (List α))
  | 0, it => some it
  | n + 1, it =>
    match increment compare it with
    | none => none
    | some next => increment_times compare n next

/-! ## Counting sort -/

/-- The statement `++counters[i]`, undefined outside the array. -/
def increment_counter (counters : List Nat) (i : Nat) : Option (List Nat) :=
  match counters.get? i with
  | none => none
  | some c => some (counters.set i (c + 1))

/-- The loop `std::for_each(first, last, ++counters[map(preimage) + 1])` of `collect`. -/
def collect_loop (map : α → Nat) : List α → List Nat → Option (List Nat)
  | [], counters => some counters
  | preimage :: rest, counters =>
    match increment_counter counters (map preimage + 1) with
    | none => none
    | some counted => collect_loop map rest counted

/-- The running sums written by `std::partial_sum`, started from the sum `acc`. -/
def partial_sum_from (acc : Nat) : List Nat → List Nat
  | [] => []
  | c :: rest => (acc + c) :: partial_sum_from (acc + c) rest

/-- The call `std::partial_sum(begin(counters), end(counters), begin(counters))`. -/
def partial_sum (counters : List Nat) : List Nat :=
  partial_sum_from 0 counters

/-- The function `collect (first, last, map, counters)`. -/
def collect (map : α → Nat) (input : List α) (counters : List Nat) : Option (List Nat) :=
  match collect_loop map input counters with
  | none => none
  | some counted => some (partial_sum counted)

/-- The function `dispose (first, last, result, map, counters)`: every element is written to
`result[counters[map(preimage)]++]`. The output buffer `result` is the list of the values it
holds; a write outside the buffer or outside the counters is undefined. -/
def dispose (map : α → Nat) : List α → List α → List Nat → Option (List α × List Nat)
  | [], result, counters => some (result, counters)
  | preimage :: rest, result, counters =>
    match counters.get? (map preimage) with
    | none => none
    | some index =>
      if index < result.length then
        dispose map rest (result.set index preimage) (counters.set (map preimage) (index + 1))
      else none

/-- Modelled from the spec: `burst::cback` from the header `burst/container/access/cback.hpp`,
the last element of a container, read-only. -/
def cback (counters : List Nat) : Option Nat :=
  counters.getLast?

/-- The function `counting_sort_impl (first, last, result, map, dispose)`, with `value_range` of
`counting_sort_traits` as an argument: `numeric_limits<image_type>::max() + 1`, which is 256 and
65536 for keys of 8 and 16 bits. Both callers pass a `dispose` that writes the same values
(by copy or by move). The counters have the type `difference_type` of the output iterator and
hold numbers up to the length of the input, so they are natural numbers here. Returns the output
buffer and the offset of the returned iterator from `result`. -/
def counting_sort_impl (value_range : Nat) (map : α → Nat) (input : List α) (result : List α) :
    Option (List α × Nat) :=
  match collect map input (List.replicate (value_range + 1) 0) with
  | none => none
  | some counters =>
    match dispose map input result counters with
    | none => none
    | some (sorted, disposed) =>
      match cback disposed with
      | none => none
      | some offset => some (sorted, offset)

/-! ## Notions used by the specification -/

/-- A strict weak ordering, the requirement of the standard library on a comparator. -/
structure StrictWeakOrder (compare : α → α → Bool) : Prop where
  irrefl : ∀ a, compare a a = false
  trans : ∀ a b c, compare a b = true → compare b c = true → compare a c = true
  incomp_trans : ∀ a b c, compare a b = false → compare b a = false →
    compare b c = false → compare c b = false → compare a c = false ∧ compare c a = false

/-- Equivalence of two values under the comparator: neither is less than the other. -/
def equiv (compare : α → α → Bool) (a b : α) : Bool :=
  !compare a b && !compare b a

/-- The number of the elements of a sequence that are equivalent to `v`. -/
def count_equiv (compare : α → α → Bool) (v : α) (range : List α) : Nat :=
  range.countP (equiv compare v)

/-- The maximum over the input sequences of the number of occurrences of `v`. -/
def max_count (compare : α → α → Bool) (v : α) (ranges : List (List α)) : Nat :=
  (ranges.map (count_equiv compare v)).foldr max 0

/-- The cursor collection is sorted by front value: no range has a front that is strictly less
than the front of a range placed before it. -/
def sorted_by_front (compare : α → α → Bool) (m_ranges : List (List α)) : Prop :=
  m_ranges.Pairwise (fun a b => compare_by_front_value compare b a = some false)

/-- The states of the iterator reachable from the construction over `ranges` by calls of
`increment`. -/
inductive Reachable (compare : α → α → Bool) (ranges : List (List α)) : List (List α) → Prop
  | construct (it : List (List α)) :
      make_union_iterator compare ranges = some it → Reachable compare ranges it
  | step (it next : List (List α)) :
      Reachable compare ranges it → increment compare it = some next →
      Reachable compare ranges next

/-- What `increment` does to one range when the current element is `m`: a range whose front is
not greater than `m` loses its front. -/
def advance_matching (compare : α → α → Bool) (m : α) (range : List α) : List α :=
  match range with
  | [] => []
  | x :: rest => if compare m x then x :: rest else rest

/-- The ranges after one `increment` with current element `m`, before they are sorted again. -/
def next_ranges (compare : α → α → Bool) (m : α) (m_ranges : List (List α)) : List (List α) :=
  (m_ranges.map (advance_matching compare m)).filter (fun range => !empty range)

/-- The output of a counting sort over the keys below `value_range`: for every key in
ascending order, the elements with that key in their input order. -/
def by_keys (map : α → Nat) (value_range : Nat) (input : List α) : List α :=
  (List.range value_range).flatMap (fun key => input.filter (fun x => decide (map x = key)))

/-- The state of `dispose` after the elements `done` of `input` have been written: every counter
has moved past the written elements with its key, and these elements stand, in their input
order, from the position where the key started. -/
def dispose_invariant (map : α → Nat) (value_range : Nat) (input done result : List α)
    (counters : List Nat) : Prop :=
  counters.length = value_range + 1 ∧
  (∀ k ≤ value_range, counters[k]? =
    some (input.countP (fun x => decide (map x < k)) +
      done.countP (fun x => decide (map x = k)))) ∧
  (∀ k < value_range, ∀ j < done.countP (fun x => decide (map x = k)),
    result[input.countP (fun x => decide (map x < k)) + j]? =
      (done.filter (fun x => decide (map x = k)))[j]?)

/-! ## Notions used by the later claims -/

/-- The statement `xs.insert(std::upper_bound(xs.begin(), xs.end(), a, comp), a)`: insertion
of `a` into a sorted list in the sorted position found by binary search, behind the elements
that are not greater than `a`. -/
def insert_sorted (comp : β → β → Option Bool) (a : β) (xs : List β) : Option (List β) :=
  match upper_bound comp xs a with
  | none => none
  | some position => some (xs.take position ++ a :: xs.drop position)

/-- Insertion of the ranges `advanced`, one after the other and each in its sorted position,
into the list `suffix`, which stays in place. -/
def reinsert (comp : β → β → Option Bool) : List β → List β → Option (List β)
  | [], suffix => some suffix
  | a :: rest, suffix =>
    match insert_sorted comp a suffix with
    | none => none
    | some inserted => reinsert comp rest inserted

/-- The other strategy for `increment` that the specification allows: the ranges behind
`next_element` are left in place, and the advanced ranges that are not empty are inserted into
them in sorted position; the collection as a whole is not sorted again. -/
def increment_reinsert (compare : α → α → Bool) (m_ranges : List (List α)) :
    Option (List (List α)) :=
  match m_ranges with
  | [] => none
  | first_range :: _ =>
    match upper_bound (compare_by_front_value compare) m_ranges first_range with
    | none => none
    | some next_element =>
      match front first_range with
      | none => none
      | some _ =>
        match for_each_advance (m_ranges.take next_element) with
        | none => none
        | some advanced =>
          reinsert (compare_by_front_value compare)
            (advanced.filter (fun range => !empty range)) (m_ranges.drop next_element)

/-- The elements read by the iteration when every round uses `increment_reinsert`. -/
def iterate_reinsert [DecidableEq α] (compare : α → α → Bool) :
    Nat → List (List α) → Option (List α)
  | 0, it => if equal it make_union_iterator_end then some [] else none
  | fuel + 1, it =>
    if equal it make_union_iterator_end then some []
    else
      match dereference it with
      | none => none
      | some value =>
        match increment_reinsert compare it with
        | none => none
        | some next =>
          match iterate_reinsert compare fuel next with
          | none => none
          | some values => some (value :: values)

/-- The whole output of the union when every round uses `increment_reinsert`. -/
def union_elements_reinsert [DecidableEq α] (compare : α → α → Bool)
    (ranges : List (List α)) : Option (List α) :=
  match make_union_iterator compare ranges with
  | none => none
  | some it => iterate_reinsert compare (total_size ranges) it

/-- The indices `counters[map(preimage)]++` that `dispose` writes to, in the order of the
writes. -/
def dispose_indices (map : α → Nat) : List α → List Nat → Option (List Nat)
  | [], _ => some []
  | preimage :: rest, counters =>
    match counters.get? (map preimage) with
    | none => none
    | some index =>
      match dispose_indices map rest (counters.set (map preimage) (index + 1)) with
      | none => none
      | some indices => some (index :: indices)

/-- The buffer after the writes `result[index] = preimage` for the given indices and elements,
in their order. -/
def write_all : List Nat → List α → List α → List α
  | index :: indices, preimage :: rest, result => write_all indices rest (result.set index preimage)
  | _, _, result => result

/-- A comparator that is a strict weak ordering and not a total order: pairs are compared by
their first component only. -/
def less_by_key (a b : Nat × Nat) : Bool := decide (a.1 < b.1)

/-- The states reachable from the construction over `ranges` by calls of `increment`, each with
the windows of all input ranges at that moment, in the order of the inputs and with the
exhausted windows kept: at the construction the windows are the inputs themselves, and a call
of `increment` at the current element `m` moves every window whose front is not greater than
`m` one element forward. -/
inductive ReachableWindows (compare : α → α → Bool) (ranges : List (List α)) :
    List (List α) → List (List α) → Prop
  | construct (it : List (List α)) :
      make_union_iterator compare ranges = some it → ReachableWindows compare ranges it ranges
  | step (it next windows : List (List α)) (m : α) :
      ReachableWindows compare ranges it windows → dereference it = some m →
      increment compare it = some next →
      ReachableWindows compare ranges next (windows.map (advance_matching compare m))

/-! # Lemmas -/

/-! ## Strict weak orderings -/

theorem StrictWeakOrder.asymm {compare : α → α → Bool} (h : StrictWeakOrder compare)
    {a b : α} (hab : compare a b = true) : compare b a = false := by
  cases hba : compare b a with
  | false => rfl
  | true =>
    have := h.trans a b a hab hba
    rw [h.irrefl] at this
    exact absurd this (by simp)

/-- Transitivity of "not less": `a ≤ b` and `b ≤ c` give `a ≤ c`. -/
theorem StrictWeakOrder.le_trans {compare : α → α → Bool} (h : StrictWeakOrder compare)
    {a b c : α} (hab : compare b a = false) (hbc : compare c b = false) :
    compare c a = false := by
  cases hca : compare c a with
  | false => rfl
  | true =>
    cases hab2 : compare a b with
    | true =>
      have := h.trans c a b hca hab2
      rw [hbc] at this
      exact absurd this (by simp)
    | false =>
      cases hbc2 : compare b c with
      | true =>
        have := h.trans b c a hbc2 hca
        rw [hab] at this
        exact absurd this (by simp)
      | false =>
        have := (h.incomp_trans a b c hab2 hab hbc2 hbc).2
        rw [hca] at this
        exact absurd this (by simp)

theorem StrictWeakOrder.lt_of_lt_of_le {compare : α → α → Bool} (h : StrictWeakOrder compare)
    {a b c : α} (hab : compare a b = true) (hbc : compare c b = false) :
    compare a c = true := by
  cases hac : compare a c with
  | true => rfl
  | false =>
    have := h.le_trans hbc hac
    rw [hab] at this
    exact this.symm

theorem StrictWeakOrder.lt_of_le_of_lt {compare : α → α → Bool} (h : StrictWeakOrder compare)
    {a b c : α} (hab : compare b a = false) (hbc : compare b c = true) :
    compare a c = true := by
  cases hac : compare a c with
  | true => rfl
  | false =>
    have := h.le_trans hac hab
    rw [hbc] at this
    exact this.symm

theorem equiv_symm {compare : α → α → Bool} {a b : α} (hab : equiv compare a b = true) :
    equiv compare b a = true := by
  simp [equiv] at *
  exact ⟨hab.2, hab.1⟩

theorem equiv_comm (compare : α → α → Bool) (a b : α) :
    equiv compare a b = equiv compare b a := by
  simp [equiv, Bool.and_comm]

theorem equiv_trans {compare : α → α → Bool} (h : StrictWeakOrder compare) {a b c : α}
    (hab : equiv compare a b = true) (hbc : equiv compare b c = true) :
    equiv compare a c = true := by
  simp [equiv] at *
  exact h.incomp_trans a b c hab.1 hab.2 hbc.1 hbc.2

/-- Equivalent values are equivalent to the same values. -/
theorem equiv_congr_right {compare : α → α → Bool} (h : StrictWeakOrder compare) {a b : α}
    (hab : equiv compare a b = true) (v : α) : equiv compare v a = equiv compare v b := by
  cases hva : equiv compare v a with
  | true => exact (equiv_trans h hva hab).symm
  | false =>
    cases hvb : equiv compare v b with
    | false => rfl
    | true =>
      have := equiv_trans h hvb (equiv_symm hab)
      rw [hva] at this
      exact this

theorem less_swo : StrictWeakOrder less := by
  refine ⟨?_, ?_, ?_⟩
  · intro a; simp [less]
  · intro a b c; simp only [less, decide_eq_true_eq]; omega
  · intro a b c; simp only [less, decide_eq_false_iff_not]; omega

theorem greater_swo : StrictWeakOrder greater := by
  refine ⟨?_, ?_, ?_⟩
  · intro a; simp [greater]
  · intro a b c; simp only [greater, decide_eq_true_eq]; omega
  · intro a b c; simp only [greater, decide_eq_false_iff_not]; omega

/-! ## Ranges -/

theorem empty_eq_false_iff (range : List α) : (!empty range) = true ↔ range ≠ [] := by
  cases range <;> simp [empty]

theorem compare_by_front_value_cons (compare : α → α → Bool) (a b : α) (s t : List α) :
    compare_by_front_value compare (a :: s) (b :: t) = some (compare a b) := rfl

theorem is_sorted_tail {compare : α → α → Bool} {x : α} {rest : List α}
    (h : is_sorted compare (x :: rest) = true) : is_sorted compare rest = true := by
  cases rest with
  | nil => rfl
  | cons y rest =>
    simp [is_sorted] at h
    exact h.2

/-- In a sorted range no element is less than the front. -/
theorem is_sorted_front_le {compare : α → α → Bool} (h : StrictWeakOrder compare) :
    ∀ (range : List α) (x : α), is_sorted compare (x :: range) = true →
      ∀ y ∈ x :: range, compare y x = false
  | [], x, _, y, hy => by
    simp at hy
    rw [hy]; exact h.irrefl x
  | z :: rest, x, hs, y, hy => by
    simp [is_sorted] at hs
    rcases List.mem_cons.1 hy with rfl | hy
    · exact h.irrefl _
    · have := is_sorted_front_le h rest z hs.2 y hy
      exact h.le_trans hs.1 this

/-! ## Sorting -/

theorem ordered_insert_perm (comp : β → β → Option Bool) (a : β) :
    ∀ (l r : List β), ordered_insert comp a l = some r → r.Perm (a :: l)
  | [], r, h => by
    simp [ordered_insert] at h
    rw [← h]
  | b :: rest, r, h => by
    simp only [ordered_insert] at h
    cases hc : comp b a with
    | none => rw [hc] at h; simp at h
    | some t =>
      rw [hc] at h
      cases t with
      | false =>
        simp at h
        rw [← h]
      | true =>
        cases hi : ordered_insert comp a rest with
        | none => rw [hi] at h; simp at h
        | some inserted =>
          rw [hi] at h
          simp at h
          rw [← h]
          exact ((ordered_insert_perm comp a rest inserted hi).cons b).trans (List.Perm.swap a b rest)

theorem std_sort_perm (comp : β → β → Option Bool) :
    ∀ (l r : List β), std_sort comp l = some r → r.Perm l
  | [], r, h => by
    simp [std_sort] at h
    rw [← h]
  | a :: rest, r, h => by
    simp only [std_sort] at h
    cases hs : std_sort comp rest with
    | none => rw [hs] at h; simp at h
    | some sorted =>
      rw [hs] at h
      simp at h
      exact (ordered_insert_perm comp a sorted r h).trans ((std_sort_perm comp rest sorted hs).cons a)

/-- Insertion into a list of non-empty ranges is defined and keeps the list sorted by front. -/
theorem ordered_insert_ranges {compare : α → α → Bool} (h : StrictWeakOrder compare)
    (x : α) (t : List α) :
    ∀ (l : List (List α)), (∀ c ∈ l, c ≠ []) → sorted_by_front compare l →
      ∃ r, ordered_insert (compare_by_front_value compare) (x :: t) l = some r ∧
        sorted_by_front compare r
  | [], _, _ => ⟨[x :: t], rfl, by simp [sorted_by_front]⟩
  | [] :: rest, hne, _ => absurd rfl (hne [] (List.mem_cons_self _ _))
  | (y :: u) :: rest, hne, hs => by
    have hs' : sorted_by_front compare rest := (List.pairwise_cons.1 hs).2
    have hrel := (List.pairwise_cons.1 hs).1
    cases hc : compare y x with
    | false =>
      refine ⟨(x :: t) :: (y :: u) :: rest, by simp [ordered_insert, compare_by_front_value, front, hc], ?_⟩
      refine List.pairwise_cons.2 ⟨?_, hs⟩
      intro c hc'
      rcases List.mem_cons.1 hc' with rfl | hc'
      · simp [compare_by_front_value, front, hc]
      · cases c with
        | nil => exact absurd rfl (hne [] (List.mem_cons_of_mem _ hc'))
        | cons z w =>
          have := hrel _ hc'
          simp [compare_by_front_value, front] at this ⊢
          exact h.le_trans hc this
    | true =>
      obtain ⟨r, hr, hsr⟩ := ordered_insert_ranges h x t rest
        (fun c hc' => hne c (List.mem_cons_of_mem _ hc')) hs'
      refine ⟨(y :: u) :: r, by simp [ordered_insert, compare_by_front_value, front, hc, hr], ?_⟩
      refine List.pairwise_cons.2 ⟨?_, hsr⟩
      intro c hc'
      have hmem := (ordered_insert_perm _ _ _ _ hr).mem_iff.1 hc'
      rcases List.mem_cons.1 hmem with rfl | hmem
      · simp [compare_by_front_value, front]
        exact h.asymm hc
      · exact hrel _ hmem

/-- Sorting non-empty ranges by front value is defined and returns a sorted permutation. -/
theorem std_sort_ranges {compare : α → α → Bool} (h : StrictWeakOrder compare) :
    ∀ (l : List (List α)), (∀ c ∈ l, c ≠ []) →
      ∃ r, std_sort (compare_by_front_value compare) l = some r ∧ r.Perm l ∧
        sorted_by_front compare r
  | [], _ => ⟨[], rfl, List.Perm.refl _, by simp [sorted_by_front]⟩
  | [] :: rest, hne => absurd rfl (hne [] (List.mem_cons_self _ _))
  | (x :: t) :: rest, hne => by
    obtain ⟨r, hr, hp, hs⟩ := std_sort_ranges h rest (fun c hc => hne c (List.mem_cons_of_mem _ hc))
    obtain ⟨r', hr', hs'⟩ := ordered_insert_ranges h x t r
      (fun c hc => hne c (List.mem_cons_of_mem _ (hp.mem_iff.1 hc))) hs
    have hsort : std_sort (compare_by_front_value compare) ((x :: t) :: rest) = some r' := by
      simp [std_sort, hr, hr']
    exact ⟨r', hsort, std_sort_perm _ _ _ hsort, hs'⟩

/-- Without any assumption on the comparator, sorting non-empty ranges is defined. -/
theorem ordered_insert_defined (compare : α → α → Bool) (x : α) (t : List α) :
    ∀ (l : List (List α)), (∀ c ∈ l, c ≠ []) →
      ∃ r, ordered_insert (compare_by_front_value compare) (x :: t) l = some r
  | [], _ => ⟨[x :: t], rfl⟩
  | [] :: rest, hne => absurd rfl (hne [] (List.mem_cons_self _ _))
  | (y :: u) :: rest, hne => by
    cases hc : compare y x with
    | false =>
      exact ⟨(x :: t) :: (y :: u) :: rest,
        by simp [ordered_insert, compare_by_front_value, front, hc]⟩
    | true =>
      obtain ⟨r, hr⟩ := ordered_insert_defined compare x t rest
        (fun c hc' => hne c (List.mem_cons_of_mem _ hc'))
      exact ⟨(y :: u) :: r, by simp [ordered_insert, compare_by_front_value, front, hc, hr]⟩

theorem std_sort_defined (compare : α → α → Bool) :
    ∀ (l : List (List α)), (∀ c ∈ l, c ≠ []) →
      ∃ r, std_sort (compare_by_front_value compare) l = some r
  | [], _ => ⟨[], rfl⟩
  | [] :: rest, hne => absurd rfl (hne [] (List.mem_cons_self _ _))
  | (x :: t) :: rest, hne => by
    obtain ⟨r, hr⟩ := std_sort_defined compare rest (fun c hc => hne c (List.mem_cons_of_mem _ hc))
    obtain ⟨r', hr'⟩ := ordered_insert_defined compare x t r
      (fun c hc => hne c (List.mem_cons_of_mem _ ((std_sort_perm _ _ _ hr).mem_iff.1 hc)))
    exact ⟨r', by simp [std_sort, hr, hr']⟩

/-! ## Binary search -/

/-- On a list that consists of a part where `comp value ·` is false followed by a part where it
is true, the binary search is defined and returns the length of the first part. -/
theorem upper_bound_loop_partition (comp : β → β → Option Bool) (value : β) (l₁ l₂ : List β)
    (h₁ : ∀ x ∈ l₁, comp value x = some false) (h₂ : ∀ x ∈ l₂, comp value x = some true) :
    ∀ (fuel first len : Nat), len ≤ fuel → first ≤ l₁.length → l₁.length ≤ first + len →
      first + len ≤ (l₁ ++ l₂).length →
      upper_bound_loop comp (l₁ ++ l₂) value fuel first len = some l₁.length
  | 0, first, len, hf, hlo, hhi, _ => by
    have : len = 0 := by omega
    subst this
    simp [upper_bound_loop]
    omega
  | fuel + 1, first, len, hf, hlo, hhi, hlen => by
    unfold upper_bound_loop
    by_cases h0 : len = 0
    · subst h0
      simp
      omega
    · rw [if_neg h0]
      have hmid : first + len / 2 < (l₁ ++ l₂).length := by omega
      by_cases hside : first + len / 2 < l₁.length
      · have hget : (l₁ ++ l₂).get? (first + len / 2) = some (l₁.get ⟨first + len / 2, hside⟩) := by
          rw [List.get?_eq_getElem?, List.getElem?_append_left hside, List.getElem?_eq_getElem hside]
          rfl
        rw [hget]
        simp only
        rw [h₁ _ (List.get_mem _ _ _)]
        simp only
        exact upper_bound_loop_partition comp value l₁ l₂ h₁ h₂ fuel _ _
          (by omega) (by omega) (by omega) (by omega)
      · have hlt : first + len / 2 - l₁.length < l₂.length := by
          rw [List.length_append] at hmid
          omega
        have hget : (l₁ ++ l₂).get? (first + len / 2) =
            some (l₂.get ⟨first + len / 2 - l₁.length, hlt⟩) := by
          rw [List.get?_eq_getElem?, List.getElem?_append_right (by omega),
            List.getElem?_eq_getElem hlt]
          rfl
        rw [hget]
        simp only
        rw [h₂ _ (List.get_mem _ _ _)]
        simp only
        exact upper_bound_loop_partition comp value l₁ l₂ h₁ h₂ fuel _ _
          (by omega) (by omega) (by omega) (by omega)

theorem upper_bound_partition (comp : β → β → Option Bool) (value : β) (l₁ l₂ : List β)
    (h₁ : ∀ x ∈ l₁, comp value x = some false) (h₂ : ∀ x ∈ l₂, comp value x = some true) :
    upper_bound comp (l₁ ++ l₂) value = some l₁.length :=
  upper_bound_loop_partition comp value l₁ l₂ h₁ h₂ _ _ _ (le_refl _) (Nat.zero_le _)
    (by rw [List.length_append]; omega) (by omega)

/-- A list of non-empty ranges that is sorted by front splits into the ranges whose front is
not greater than `m` and, behind them, the ranges whose front is greater than `m`. -/
theorem sorted_by_front_split {compare : α → α → Bool} (h : StrictWeakOrder compare) (m : α) :
    ∀ (l : List (List α)), (∀ c ∈ l, c ≠ []) → sorted_by_front compare l →
      ∃ l₁ l₂, l = l₁ ++ l₂ ∧
        (∀ c ∈ l₁, ∃ x t, c = x :: t ∧ compare m x = false) ∧
        (∀ c ∈ l₂, ∃ x t, c = x :: t ∧ compare m x = true)
  | [], _, _ => ⟨[], [], rfl, by simp, by simp⟩
  | [] :: rest, hne, _ => absurd rfl (hne [] (List.mem_cons_self _ _))
  | (x :: t) :: rest, hne, hs => by
    have hrel := (List.pairwise_cons.1 hs).1
    cases hc : compare m x with
    | false =>
      obtain ⟨l₁, l₂, hl, hl₁, hl₂⟩ := sorted_by_front_split h m rest
        (fun c hc' => hne c (List.mem_cons_of_mem _ hc')) (List.pairwise_cons.1 hs).2
      refine ⟨(x :: t) :: l₁, l₂, by rw [hl]; rfl, ?_, hl₂⟩
      intro c hc'
      rcases List.mem_cons.1 hc' with rfl | hc'
      · exact ⟨x, t, rfl, hc⟩
      · exact hl₁ c hc'
    | true =>
      refine ⟨[], (x :: t) :: rest, rfl, by simp, ?_⟩
      intro c hc'
      rcases List.mem_cons.1 hc' with rfl | hc'
      · exact ⟨x, t, rfl, hc⟩
      · cases c with
        | nil => exact absurd rfl (hne [] (List.mem_cons_of_mem _ hc'))
        | cons y u =>
          have := hrel _ hc'
          simp [compare_by_front_value, front] at this
          exact ⟨y, u, rfl, h.lt_of_lt_of_le hc this⟩

theorem for_each_advance_eq (compare : α → α → Bool) (m : α) :
    ∀ (l : List (List α)), (∀ c ∈ l, ∃ x t, c = x :: t ∧ compare m x = false) →
      for_each_advance l = some (l.map (advance_matching compare m))
  | [], _ => rfl
  | c :: rest, hl => by
    obtain ⟨x, t, rfl, hx⟩ := hl c (List.mem_cons_self _ _)
    have := for_each_advance_eq compare m rest (fun c hc => hl c (List.mem_cons_of_mem _ hc))
    simp [for_each_advance, advance_begin_1, this, advance_matching, hx]

theorem map_advance_matching_eq (compare : α → α → Bool) (m : α) :
    ∀ (l : List (List α)), (∀ c ∈ l, ∃ x t, c = x :: t ∧ compare m x = true) →
      l.map (advance_matching compare m) = l
  | [], _ => rfl
  | c :: rest, hl => by
    obtain ⟨x, t, rfl, hx⟩ := hl c (List.mem_cons_self _ _)
    have := map_advance_matching_eq compare m rest (fun c hc => hl c (List.mem_cons_of_mem _ hc))
    simp [advance_matching, hx, this]

theorem next_ranges_ne_nil (compare : α → α → Bool) (m : α) (l : List (List α)) :
    ∀ c ∈ next_ranges compare m l, c ≠ [] := by
  intro c hc
  simp only [next_ranges, List.mem_filter] at hc
  exact (empty_eq_false_iff c).1 hc.2

/-- The effect of `increment` on a state without empty ranges that is sorted by front: it is
defined, and the new state is a permutation of `next_ranges` that is again sorted by front. -/
theorem increment_spec {compare : α → α → Bool} (h : StrictWeakOrder compare)
    (m : α) (t : List α) (rest : List (List α))
    (hne : ∀ c ∈ (m :: t) :: rest, c ≠ [])
    (hs : sorted_by_front compare ((m :: t) :: rest)) :
    ∃ next, increment compare ((m :: t) :: rest) = some next ∧
      next.Perm (next_ranges compare m ((m :: t) :: rest)) ∧
      sorted_by_front compare next ∧ (∀ c ∈ next, c ≠ []) := by
  obtain ⟨l₁, l₂, hl, hl₁, hl₂⟩ := sorted_by_front_split h m _ hne hs
  have hub : upper_bound (compare_by_front_value compare) ((m :: t) :: rest) (m :: t) =
      some l₁.length := by
    rw [hl]
    apply upper_bound_partition
    · intro c hc
      obtain ⟨x, u, rfl, hx⟩ := hl₁ c hc
      simp [compare_by_front_value, front, hx]
    · intro c hc
      obtain ⟨x, u, rfl, hx⟩ := hl₂ c hc
      simp [compare_by_front_value, front, hx]
  have htake : ((m :: t) :: rest).take l₁.length = l₁ := by rw [hl]; simp
  have hdrop : ((m :: t) :: rest).drop l₁.length = l₂ := by rw [hl]; simp
  have hnext : next_ranges compare m ((m :: t) :: rest) =
      (l₁.map (advance_matching compare m) ++ l₂).filter (fun range => !empty range) := by
    unfold next_ranges
    rw [hl, List.map_append, map_advance_matching_eq compare m l₂ hl₂]
  obtain ⟨next, hnext', hperm, hsorted⟩ := std_sort_ranges h
    (next_ranges compare m ((m :: t) :: rest)) (next_ranges_ne_nil compare m _)
  refine ⟨next, ?_, hperm, hsorted, ?_⟩
  · unfold increment
    simp only [hub, front, htake, hdrop, for_each_advance_eq compare m l₁ hl₁]
    rw [← hnext]
    exact hnext'
  · intro c hc
    exact next_ranges_ne_nil compare m _ c (hperm.mem_iff.1 hc)

/-- Whatever the comparator, a state produced by `increment` has no empty range. -/
theorem increment_ne_nil (compare : α → α → Bool) (it next : List (List α))
    (h : increment compare it = some next) : ∀ c ∈ next, c ≠ [] := by
  unfold increment at h
  split at h
  · simp at h
  · split at h
    · simp at h
    · split at h
      · simp at h
      · split at h
        · simp at h
        · intro c hc
          have := (std_sort_perm _ _ _ h).mem_iff.1 hc
          exact (empty_eq_false_iff c).1 (List.mem_filter.1 this).2

theorem make_union_iterator_perm (compare : α → α → Bool) (ranges it : List (List α))
    (h : make_union_iterator compare ranges = some it) :
    it.Perm (ranges.filter (fun range => !empty range)) :=
  std_sort_perm _ _ _ h

theorem make_union_iterator_ne_nil (compare : α → α → Bool) (ranges it : List (List α))
    (h : make_union_iterator compare ranges = some it) : ∀ c ∈ it, c ≠ [] := by
  intro c hc
  have := (make_union_iterator_perm compare ranges it h).mem_iff.1 hc
  exact (empty_eq_false_iff c).1 (List.mem_filter.1 this).2

theorem make_union_iterator_defined (compare : α → α → Bool) (ranges : List (List α)) :
    ∃ it, make_union_iterator compare ranges = some it :=
  std_sort_defined compare _ (fun c hc => (empty_eq_false_iff c).1 (List.mem_filter.1 hc).2)

theorem make_union_iterator_spec {compare : α → α → Bool} (h : StrictWeakOrder compare)
    (ranges : List (List α)) :
    ∃ it, make_union_iterator compare ranges = some it ∧
      it.Perm (ranges.filter (fun range => !empty range)) ∧
      sorted_by_front compare it ∧ (∀ c ∈ it, c ≠ []) := by
  obtain ⟨it, hit, hperm, hsorted⟩ := std_sort_ranges h
    (ranges.filter (fun range => !empty range))
    (fun c hc => (empty_eq_false_iff c).1 (List.mem_filter.1 hc).2)
  exact ⟨it, hit, hperm, hsorted, make_union_iterator_ne_nil compare ranges it hit⟩

theorem reachable_ne_nil (compare : α → α → Bool) (ranges it : List (List α))
    (h : Reachable compare ranges it) : ∀ c ∈ it, c ≠ [] := by
  cases h with
  | construct _ hc => exact make_union_iterator_ne_nil compare ranges it hc
  | step prev _ _ hs => exact increment_ne_nil compare prev it hs

theorem reachable_sorted_by_front {compare : α → α → Bool} (h : StrictWeakOrder compare)
    (ranges it : List (List α)) (hr : Reachable compare ranges it) :
    sorted_by_front compare it := by
  induction hr with
  | construct it hc =>
    obtain ⟨it', hit', _, hs, _⟩ := make_union_iterator_spec h ranges
    rw [hc] at hit'
    cases hit'
    exact hs
  | step it next hprev hs ih =>
    cases it with
    | nil => simp [increment] at hs
    | cons c rest =>
      cases c with
      | nil => exact absurd rfl (reachable_ne_nil compare ranges _ hprev [] (List.mem_cons_self _ _))
      | cons m t =>
        obtain ⟨next', hn, _, hsorted, _⟩ := increment_spec h m t rest
          (reachable_ne_nil compare ranges _ hprev) ih
        rw [hs] at hn
        cases hn
        exact hsorted

/-! ## Sizes -/

theorem total_size_cons (c : List α) (l : List (List α)) :
    total_size (c :: l) = c.length + total_size l := by
  simp [total_size]

theorem total_size_perm {l l' : List (List α)} (h : l.Perm l') : total_size l = total_size l' := by
  unfold total_size
  exact (h.map _).sum_eq

theorem total_size_filter_le (p : List α → Bool) :
    ∀ l : List (List α), total_size (l.filter p) ≤ total_size l
  | [] => by simp
  | c :: rest => by
    have := total_size_filter_le p rest
    by_cases hp : p c = true
    · rw [List.filter_cons_of_pos hp, total_size_cons, total_size_cons]; omega
    · rw [List.filter_cons_of_neg hp, total_size_cons]; omega

theorem length_advance_matching_le (compare : α → α → Bool) (m : α) (c : List α) :
    (advance_matching compare m c).length ≤ c.length := by
  cases c with
  | nil => simp [advance_matching]
  | cons x t =>
    simp only [advance_matching]
    split <;> simp

theorem total_size_map_advance_le (compare : α → α → Bool) (m : α) :
    ∀ l : List (List α), total_size (l.map (advance_matching compare m)) ≤ total_size l
  | [] => by simp
  | c :: rest => by
    have := total_size_map_advance_le compare m rest
    have := length_advance_matching_le compare m c
    rw [List.map_cons, total_size_cons, total_size_cons]; omega

/-- One round consumes at least the front of the first range. -/
theorem total_size_next_ranges_lt (compare : α → α → Bool) (m : α) (t : List α)
    (rest : List (List α)) (hm : compare m m = false) :
    total_size (next_ranges compare m ((m :: t) :: rest)) < total_size ((m :: t) :: rest) := by
  have h1 := total_size_filter_le (fun range : List α => !empty range)
    (((m :: t) :: rest).map (advance_matching compare m))
  have h2 := total_size_map_advance_le compare m rest
  have h3 : advance_matching compare m (m :: t) = t := by simp [advance_matching, hm]
  unfold next_ranges
  rw [List.map_cons, total_size_cons, h3] at h1
  rw [total_size_cons, List.map_cons, h3, List.length_cons]
  omega

theorem total_size_eq_zero {l : List (List α)} (hne : ∀ c ∈ l, c ≠ []) (h : total_size l = 0) :
    l = [] := by
  cases l with
  | nil => rfl
  | cons c rest =>
    cases c with
    | nil => exact absurd rfl (hne [] (List.mem_cons_self _ _))
    | cons x t => rw [total_size_cons] at h; simp at h

/-! ## Elements of the next state -/

theorem mem_next_ranges {compare : α → α → Bool} {m : α} {l : List (List α)} {c' : List α}
    (h : c' ∈ next_ranges compare m l) :
    ∃ c ∈ l, c' = advance_matching compare m c ∧ c' ≠ [] := by
  simp only [next_ranges, List.mem_filter, List.mem_map] at h
  obtain ⟨⟨c, hc, rfl⟩, hne⟩ := h
  exact ⟨c, hc, rfl, (empty_eq_false_iff _).1 hne⟩

theorem mem_advance_matching {compare : α → α → Bool} {m : α} {c : List α} {y : α}
    (h : y ∈ advance_matching compare m c) : y ∈ c := by
  cases c with
  | nil => simp [advance_matching] at h
  | cons x t =>
    simp only [advance_matching] at h
    split at h
    · exact h
    · exact List.mem_cons_of_mem _ h

theorem is_sorted_advance_matching {compare : α → α → Bool} {m : α} {c : List α}
    (h : is_sorted compare c = true) : is_sorted compare (advance_matching compare m c) = true := by
  cases c with
  | nil => simp [advance_matching, is_sorted]
  | cons x t =>
    simp only [advance_matching]
    split
    · exact h
    · exact is_sorted_tail h

/-- In a state of sorted ranges that is sorted by front, no element is less than the front of
the first range. -/
theorem front_is_least {compare : α → α → Bool} (h : StrictWeakOrder compare)
    (m : α) (t : List α) (rest : List (List α))
    (hne : ∀ c ∈ (m :: t) :: rest, c ≠ [])
    (hs : sorted_by_front compare ((m :: t) :: rest))
    (hsorted : ∀ c ∈ (m :: t) :: rest, is_sorted compare c = true) :
    ∀ c ∈ (m :: t) :: rest, ∀ y ∈ c, compare y m = false := by
  intro c hc y hy
  rcases List.mem_cons.1 hc with rfl | hc'
  · exact is_sorted_front_le h t m (hsorted _ hc) y hy
  · cases c with
    | nil => exact absurd rfl (hne [] hc)
    | cons x u =>
      have hx := (List.pairwise_cons.1 hs).1 _ hc'
      simp [compare_by_front_value, front] at hx
      exact h.le_trans hx (is_sorted_front_le h u x (hsorted _ hc) y hy)

/-! ## Multiplicities -/

theorem max_count_cons (compare : α → α → Bool) (v : α) (c : List α) (l : List (List α)) :
    max_count compare v (c :: l) = max (count_equiv compare v c) (max_count compare v l) := by
  simp [max_count]

theorem max_count_le_iff (compare : α → α → Bool) (v : α) (n : Nat) :
    ∀ l : List (List α), max_count compare v l ≤ n ↔ ∀ c ∈ l, count_equiv compare v c ≤ n
  | [] => by simp [max_count]
  | c :: rest => by
    rw [max_count_cons, Nat.max_le, max_count_le_iff compare v n rest]
    simp

theorem count_le_max_count (compare : α → α → Bool) (v : α) {l : List (List α)} {c : List α}
    (hc : c ∈ l) : count_equiv compare v c ≤ max_count compare v l :=
  (max_count_le_iff compare v _ l).1 (le_refl _) c hc

theorem max_count_perm (compare : α → α → Bool) (v : α) {l l' : List (List α)}
    (h : l.Perm l') : max_count compare v l = max_count compare v l' := by
  apply le_antisymm
  · exact (max_count_le_iff compare v _ l).2
      (fun c hc => count_le_max_count compare v (h.mem_iff.1 hc))
  · exact (max_count_le_iff compare v _ l').2
      (fun c hc => count_le_max_count compare v (h.mem_iff.2 hc))

theorem max_count_filter_empty (compare : α → α → Bool) (v : α) (l : List (List α)) :
    max_count compare v (l.filter (fun range => !empty range)) = max_count compare v l := by
  apply le_antisymm
  · exact (max_count_le_iff compare v _ _).2
      (fun c hc => count_le_max_count compare v (List.mem_filter.1 hc).1)
  · refine (max_count_le_iff compare v _ _).2 (fun c hc => ?_)
    cases c with
    | nil => simp [count_equiv]
    | cons x t =>
      exact count_le_max_count compare v (List.mem_filter.2 ⟨hc, by simp [empty]⟩)

/-- Advancing a sorted range whose front is not less than `m` removes one occurrence of the
class of `m`, when the range has one, and nothing else. -/
theorem count_equiv_advance_matching {compare : α → α → Bool} (h : StrictWeakOrder compare)
    (m v x : α) (u : List α) (hs : is_sorted compare (x :: u) = true)
    (hx : compare x m = false) :
    count_equiv compare v (advance_matching compare m (x :: u)) =
      count_equiv compare v (x :: u) - (if equiv compare v m = true then 1 else 0) := by
  cases hmx : compare m x with
  | false =>
    have hxm : equiv compare m x = true := by simp [equiv, hmx, hx]
    have := equiv_congr_right h hxm v
    simp only [advance_matching, hmx, count_equiv, List.countP_cons, this]
    simp
  | true =>
    simp only [advance_matching, hmx, if_true]
    by_cases hv : equiv compare v m = true
    · have hzero : count_equiv compare v (x :: u) = 0 := by
        unfold count_equiv
        rw [List.countP_eq_zero]
        intro y hy hvy
        have h1 : compare m y = true :=
          h.lt_of_lt_of_le hmx (is_sorted_front_le h u x hs y hy)
        have h2 := equiv_trans h (equiv_symm hv) hvy
        simp [equiv, h1] at h2
      rw [hzero]
      simp
    · simp [hv]

theorem max_count_next_ranges {compare : α → α → Bool} (h : StrictWeakOrder compare)
    (m v : α) (l : List (List α)) (hne : ∀ c ∈ l, c ≠ [])
    (hsorted : ∀ c ∈ l, is_sorted compare c = true)
    (hmin : ∀ c ∈ l, ∀ y ∈ c, compare y m = false) :
    max_count compare v (next_ranges compare m l) =
      max_count compare v l - (if equiv compare v m = true then 1 else 0) := by
  have hadv : ∀ c ∈ l, count_equiv compare v (advance_matching compare m c) =
      count_equiv compare v c - (if equiv compare v m = true then 1 else 0) := by
    intro c hc
    cases c with
    | nil => exact absurd rfl (hne [] hc)
    | cons x u =>
      exact count_equiv_advance_matching h m v x u (hsorted _ hc)
        (hmin _ hc x (List.mem_cons_self _ _))
  unfold next_ranges
  rw [max_count_filter_empty]
  apply le_antisymm
  · refine (max_count_le_iff compare v _ _).2 (fun c' hc' => ?_)
    obtain ⟨c, hc, rfl⟩ := List.mem_map.1 hc'
    rw [hadv c hc]
    exact Nat.sub_le_sub_right (count_le_max_count compare v hc) _
  · rw [Nat.sub_le_iff_le_add]
    refine (max_count_le_iff compare v _ _).2 (fun c hc => ?_)
    have h1 := hadv c hc
    have h2 : count_equiv compare v (advance_matching compare m c) ≤
        max_count compare v (l.map (advance_matching compare m)) :=
      count_le_max_count compare v (List.mem_map_of_mem _ hc)
    omega

/-! ## The whole iteration -/

theorem equal_end_cons [DecidableEq α] (c : List α) (rest : List (List α)) :
    equal (c :: rest) make_union_iterator_end = false := by
  simp [equal, make_union_iterator_end]

theorem equal_end_nil [DecidableEq α] :
    equal ([] : List (List α)) make_union_iterator_end = true := by
  simp [equal, make_union_iterator_end]

/-- From a state without empty ranges that is sorted by front, the iteration ends within
`total_size` rounds and yields only elements of the ranges; when the ranges are sorted, the
multiplicities are the maxima over the ranges and the output is sorted. -/
theorem iterate_spec [DecidableEq α] {compare : α → α → Bool} (h : StrictWeakOrder compare) :
    ∀ (fuel : Nat) (it : List (List α)), (∀ c ∈ it, c ≠ []) → sorted_by_front compare it →
      total_size it ≤ fuel →
      ∃ out, iterate compare fuel it = some out ∧
        (∀ y ∈ out, ∃ c ∈ it, y ∈ c) ∧
        ((∀ c ∈ it, is_sorted compare c = true) →
          (∀ v, count_equiv compare v out = max_count compare v it) ∧
          out.Pairwise (fun a b => compare b a = false))
  | 0, it, hne, _, hsize => by
    have : it = [] := total_size_eq_zero hne (by omega)
    subst this
    exact ⟨[], by simp [iterate, equal_end_nil], by simp, fun _ => by simp [count_equiv, max_count]⟩
  | fuel + 1, [], _, _, _ =>
    ⟨[], by simp [iterate, equal_end_nil], by simp, fun _ => by simp [count_equiv, max_count]⟩
  | fuel + 1, [] :: rest, hne, _, _ => absurd rfl (hne [] (List.mem_cons_self _ _))
  | fuel + 1, (m :: t) :: rest, hne, hs, hsize => by
    obtain ⟨next, hinc, hperm, hsn, hnn⟩ := increment_spec h m t rest hne hs
    have hlt := total_size_next_ranges_lt compare m t rest (h.irrefl m)
    rw [← total_size_perm hperm] at hlt
    obtain ⟨out, hout, hmem, hrest⟩ := iterate_spec h fuel next hnn hsn (by omega)
    have hmem' : ∀ y ∈ out, ∃ c ∈ (m :: t) :: rest, y ∈ c := by
      intro y hy
      obtain ⟨c', hc', hyc⟩ := hmem y hy
      obtain ⟨c, hc, rfl, _⟩ := mem_next_ranges (hperm.mem_iff.1 hc')
      exact ⟨c, hc, mem_advance_matching hyc⟩
    refine ⟨m :: out, ?_, ?_, ?_⟩
    · simp [iterate, equal_end_cons, dereference, front, hinc, hout]
    · intro y hy
      rcases List.mem_cons.1 hy with rfl | hy
      · exact ⟨y :: t, List.mem_cons_self _ _, List.mem_cons_self _ _⟩
      · exact hmem' y hy
    · intro hsorted
      have hmin := front_is_least h m t rest hne hs hsorted
      have hsorted' : ∀ c ∈ next, is_sorted compare c = true := by
        intro c' hc'
        obtain ⟨c, hc, rfl, _⟩ := mem_next_ranges (hperm.mem_iff.1 hc')
        exact is_sorted_advance_matching (hsorted c hc)
      obtain ⟨hcount, hpair⟩ := hrest hsorted'
      constructor
      · intro v
        have h1 := max_count_next_ranges h m v _ hne hsorted hmin
        rw [← max_count_perm compare v hperm, ← hcount v] at h1
        have h2 : (if equiv compare v m = true then 1 else 0) ≤
            max_count compare v ((m :: t) :: rest) := by
          refine le_trans ?_ (count_le_max_count compare v (List.mem_cons_self _ _))
          simp only [count_equiv, List.countP_cons]
          omega
        simp only [count_equiv, List.countP_cons] at h1 ⊢
        omega
      · refine List.pairwise_cons.2 ⟨?_, hpair⟩
        intro y hy
        obtain ⟨c, hc, hyc⟩ := hmem' y hy
        exact hmin c hc y hyc

/-! ## Representatives of the classes of equivalent values -/

theorem iterate_increment_times [DecidableEq α] (compare : α → α → Bool) :
    ∀ (fuel : Nat) (it : List (List α)) (out : List α), iterate compare fuel it = some out →
      increment_times compare out.length it = some make_union_iterator_end ∧
      ∀ k < out.length, ∃ s, increment_times compare k it = some s ∧
        equal s make_union_iterator_end = false
  | 0, it, out, hit => by
    simp only [iterate] at hit
    split at hit
    · rename_i heq
      cases hit
      simp only [equal, decide_eq_true_eq] at heq
      subst heq
      exact ⟨rfl, by simp⟩
    · simp at hit
  | fuel + 1, it, out, hit => by
    simp only [iterate] at hit
    split at hit
    · rename_i heq
      cases hit
      simp only [equal, decide_eq_true_eq] at heq
      subst heq
      exact ⟨rfl, by simp⟩
    · rename_i hne
      split at hit
      · simp at hit
      · split at hit
        · simp at hit
        · rename_i next hnext
          split at hit
          · simp at hit
          · rename_i values hvalues
            cases hit
            obtain ⟨h1, h2⟩ := iterate_increment_times compare fuel next values hvalues
            constructor
            · simp only [List.length_cons, increment_times, hnext]
              exact h1
            · intro k hk
              cases k with
              | zero =>
                refine ⟨it, rfl, ?_⟩
                simpa using hne
              | succ k =>
                simp only [increment_times, hnext]
                exact h2 k (by simpa using hk)

/-! ## Construction -/

theorem total_size_make_union_iterator (compare : α → α → Bool) (ranges it : List (List α))
    (h : make_union_iterator compare ranges = some it) : total_size it ≤ total_size ranges := by
  rw [total_size_perm (make_union_iterator_perm compare ranges it h)]
  exact total_size_filter_le _ _

/-- The whole union of sorted inputs under a strict weak ordering. -/
theorem union_elements_spec [DecidableEq α] {compare : α → α → Bool}
    (h : StrictWeakOrder compare) (ranges : List (List α))
    (hsorted : ∀ r ∈ ranges, is_sorted compare r = true) :
    ∃ it out, make_union_iterator compare ranges = some it ∧
      iterate compare (total_size ranges) it = some out ∧
      union_elements compare ranges = some out ∧
      (∀ y ∈ out, ∃ r ∈ ranges, y ∈ r) ∧
      (∀ v, count_equiv compare v out = max_count compare v ranges) ∧
      out.Pairwise (fun a b => compare b a = false) := by
  obtain ⟨it, hit, hperm, hs, hne⟩ := make_union_iterator_spec h ranges
  obtain ⟨out, hout, hmem, hrest⟩ := iterate_spec h (total_size ranges) it hne hs
    (total_size_make_union_iterator compare ranges it hit)
  have hsub : ∀ c ∈ it, c ∈ ranges := fun c hc => (List.mem_filter.1 (hperm.mem_iff.1 hc)).1
  obtain ⟨hcount, hpair⟩ := hrest (fun c hc => hsorted c (hsub c hc))
  refine ⟨it, out, hit, hout, by simp [union_elements, hit, hout], ?_, ?_, hpair⟩
  · intro y hy
    obtain ⟨c, hc, hyc⟩ := hmem y hy
    exact ⟨c, hsub c hc, hyc⟩
  · intro v
    rw [hcount v, max_count_perm compare v hperm, max_count_filter_empty]

theorem count_equiv_eq_count [DecidableEq α] (compare : α → α → Bool)
    (hirr : ∀ a, compare a a = false)
    (htotal : ∀ a b, compare a b = false → compare b a = false → a = b) (v : α) (l : List α) :
    count_equiv compare v l = l.count v := by
  unfold count_equiv List.count
  apply List.countP_congr
  intro x _
  simp only [equiv, Bool.and_eq_true, Bool.not_eq_true', beq_iff_eq]
  constructor
  · intro hx
    exact (htotal v x hx.1 hx.2).symm
  · intro hx
    subst hx
    exact ⟨hirr x, hirr x⟩

/-! ## A single sequence -/

theorem increment_single (compare : α → α → Bool) (hirr : ∀ a, compare a a = false)
    (x : α) (t : List α) :
    increment compare [x :: t] = some (match t with | [] => [] | y :: u => [y :: u]) := by
  cases t <;>
    simp [increment, upper_bound, upper_bound_loop, compare_by_front_value, front, hirr,
      for_each_advance, advance_begin_1, empty, std_sort, ordered_insert]

theorem iterate_single [DecidableEq α] (compare : α → α → Bool)
    (hirr : ∀ a, compare a a = false) :
    ∀ (t : List α) (x : α) (fuel : Nat), (x :: t).length ≤ fuel →
      iterate compare fuel [x :: t] = some (x :: t)
  | [], x, 0, hf => by simp at hf
  | [], x, fuel + 1, _ => by
    have : iterate compare fuel ([] : List (List α)) = some [] := by
      cases fuel <;> simp [iterate, equal_end_nil]
    simp [iterate, equal_end_cons, dereference, front, increment_single compare hirr, this]
  | y :: u, x, 0, hf => by simp at hf
  | y :: u, x, fuel + 1, hf => by
    have := iterate_single compare hirr u y fuel (by simpa using hf)
    simp [iterate, equal_end_cons, dereference, front, increment_single compare hirr, this]

theorem increment_times_single (compare : α → α → Bool) (hirr : ∀ a, compare a a = false) :
    ∀ (t : List α) (x : α),
      increment_times compare (x :: t).length [x :: t] = some make_union_iterator_end
  | [], x => by
    simp [increment_times, increment_single compare hirr, make_union_iterator_end]
  | y :: u, x => by
    have := increment_times_single compare hirr u y
    rw [List.length_cons, increment_times, increment_single compare hirr]
    exact this

/-! ## Invariants of the reachable states -/

theorem reachable_is_sorted {compare : α → α → Bool} (h : StrictWeakOrder compare)
    (ranges it : List (List α)) (hsorted : ∀ r ∈ ranges, is_sorted compare r = true)
    (hr : Reachable compare ranges it) : ∀ c ∈ it, is_sorted compare c = true := by
  induction hr with
  | construct it hc =>
    intro c hc'
    exact hsorted c (List.mem_filter.1 ((make_union_iterator_perm compare ranges _ hc).mem_iff.1 hc')).1
  | step it next hprev hs ih =>
    cases it with
    | nil => simp [increment] at hs
    | cons c rest =>
      cases c with
      | nil => exact absurd rfl (reachable_ne_nil compare ranges _ hprev [] (List.mem_cons_self _ _))
      | cons m t =>
        obtain ⟨next', hn, hperm, _, _⟩ := increment_spec h m t rest
          (reachable_ne_nil compare ranges _ hprev) (reachable_sorted_by_front h ranges _ hprev)
        rw [hs] at hn
        cases hn
        intro c' hc'
        obtain ⟨c, hc, rfl, _⟩ := mem_next_ranges (hperm.mem_iff.1 hc')
        exact is_sorted_advance_matching (ih c hc)

theorem reachable_increment_defined {compare : α → α → Bool} (h : StrictWeakOrder compare)
    (ranges it : List (List α)) (hr : Reachable compare ranges it) (hne : it ≠ []) :
    ∃ next, increment compare it = some next := by
  cases it with
  | nil => exact absurd rfl hne
  | cons c rest =>
    cases c with
    | nil => exact absurd rfl (reachable_ne_nil compare ranges _ hr [] (List.mem_cons_self _ _))
    | cons m t =>
      obtain ⟨next, hn, _⟩ := increment_spec h m t rest
        (reachable_ne_nil compare ranges _ hr) (reachable_sorted_by_front h ranges _ hr)
      exact ⟨next, hn⟩

/-! ## The windows of the input ranges -/

theorem increment_some_dereference (compare : α → α → Bool) (it next : List (List α))
    (h : increment compare it = some next) : ∃ m, dereference it = some m := by
  unfold increment at h
  cases it with
  | nil => simp at h
  | cons c rest =>
    simp only at h
    cases hf : front c with
    | none =>
      rw [hf] at h
      split at h <;> simp at h
    | some m => exact ⟨m, hf⟩

theorem reachable_of_windows (compare : α → α → Bool) (ranges it windows : List (List α))
    (hr : ReachableWindows compare ranges it windows) : Reachable compare ranges it := by
  induction hr with
  | construct it hc => exact Reachable.construct it hc
  | step it next windows m _ _ hinc ih => exact Reachable.step it next ih hinc

theorem windows_of_reachable (compare : α → α → Bool) (ranges it : List (List α))
    (hr : Reachable compare ranges it) :
    ∃ windows, ReachableWindows compare ranges it windows := by
  induction hr with
  | construct it hc => exact ⟨ranges, ReachableWindows.construct it hc⟩
  | step it next _ hinc ih =>
    obtain ⟨windows, hw⟩ := ih
    obtain ⟨m, hm⟩ := increment_some_dereference compare it next hinc
    exact ⟨_, ReachableWindows.step it next windows m hw hm hinc⟩

theorem advance_matching_suffix (compare : α → α → Bool) (m : α) (r w : List α)
    (h : ∃ consumed, r = consumed ++ w) :
    ∃ consumed, r = consumed ++ advance_matching compare m w := by
  obtain ⟨consumed, hc⟩ := h
  cases w with
  | nil => exact ⟨consumed, by simpa [advance_matching] using hc⟩
  | cons x rest =>
    simp only [advance_matching]
    split
    · exact ⟨consumed, hc⟩
    · exact ⟨consumed ++ [x], by simpa using hc⟩

/-- Every window is what is left of its input range behind the elements consumed from it. -/
theorem windows_suffix (compare : α → α → Bool) (ranges it windows : List (List α))
    (hr : ReachableWindows compare ranges it windows) :
    List.Forall₂ (fun r w => ∃ consumed, r = consumed ++ w) ranges windows := by
  induction hr with
  | construct it _ =>
    rw [List.forall₂_same]
    intro r _
    exact ⟨[], rfl⟩
  | step it next windows m _ _ _ ih =>
    rw [List.forall₂_map_right_iff]
    exact ih.imp (fun r w hrw => advance_matching_suffix compare m r w hrw)

theorem filter_map_advance_matching (compare : α → α → Bool) (m : α) :
    ∀ (windows : List (List α)),
      ((windows.filter (fun w => !empty w)).map (advance_matching compare m)).filter
          (fun w => !empty w) =
        (windows.map (advance_matching compare m)).filter (fun w => !empty w)
  | [] => rfl
  | [] :: windows => by
    have ih := filter_map_advance_matching compare m windows
    have h1 : ([] :: windows).filter (fun w => !empty w) =
        windows.filter (fun w => !empty w) := rfl
    have h2 : (([] :: windows).map (advance_matching compare m)).filter (fun w => !empty w) =
        (windows.map (advance_matching compare m)).filter (fun w => !empty w) := rfl
    rw [h1, h2, ih]
  | (x :: t) :: windows => by
    have ih := filter_map_advance_matching compare m windows
    have h1 : ((x :: t) :: windows).filter (fun w => !empty w) =
        (x :: t) :: windows.filter (fun w => !empty w) := rfl
    rw [h1, List.map_cons, List.map_cons, List.filter_cons, List.filter_cons, ih]

/-- The cursor collection consists of the windows of the input ranges that are not empty. -/
theorem windows_perm {compare : α → α → Bool} (h : StrictWeakOrder compare)
    (ranges it windows : List (List α))
    (hr : ReachableWindows compare ranges it windows) :
    it.Perm (windows.filter (fun w => !empty w)) := by
  induction hr with
  | construct it hc => exact make_union_iterator_perm compare ranges it hc
  | step it next windows m hprev hm hinc ih =>
    have hreach := reachable_of_windows compare ranges it windows hprev
    have hnn := reachable_ne_nil compare ranges it hreach
    have hs := reachable_sorted_by_front h ranges it hreach
    cases it with
    | nil => simp [dereference] at hm
    | cons c rest =>
      cases c with
      | nil => exact absurd rfl (hnn [] (List.mem_cons_self _ _))
      | cons m₀ t =>
        simp only [dereference, front, Option.some.injEq] at hm
        subst hm
        obtain ⟨next', hn, hperm, _, _⟩ := increment_spec h m₀ t rest hnn hs
        rw [hinc] at hn
        cases hn
        refine hperm.trans ?_
        unfold next_ranges
        rw [← filter_map_advance_matching compare m₀ windows]
        exact (ih.map _).filter _

/-! ## Counting -/

theorem countP_lt_succ (f : α → Nat) (i : Nat) :
    ∀ l : List α, l.countP (fun x => decide (f x < i)) + l.countP (fun x => decide (f x = i)) =
      l.countP (fun x => decide (f x < i + 1))
  | [] => rfl
  | x :: rest => by
    have ih := countP_lt_succ f i rest
    simp only [List.countP_cons, decide_eq_true_eq]
    by_cases h1 : f x < i
    · have h2 : ¬ f x = i := by omega
      have h3 : f x < i + 1 := by omega
      simp only [h1, h2, h3, if_true, if_false]
      omega
    · by_cases h2 : f x = i
      · have h3 : f x < i + 1 := by omega
        simp only [h1, h3, if_true, if_false]
        simp only [h2, if_true]
        omega
      · have h3 : ¬ f x < i + 1 := by omega
        simp only [h1, h2, h3, if_false]
        omega

theorem countP_lt_mono (f : α → Nat) (l : List α) {i j : Nat} (hij : i ≤ j) :
    l.countP (fun x => decide (f x < i)) ≤ l.countP (fun x => decide (f x < j)) := by
  apply List.countP_mono_left
  intro x _ hx
  simp only [decide_eq_true_eq] at hx ⊢
  omega

theorem countP_lt_eq_length (f : α → Nat) (l : List α) (i : Nat) (h : ∀ x ∈ l, f x < i) :
    l.countP (fun x => decide (f x < i)) = l.length := by
  rw [List.countP_eq_length]
  intro x hx
  simpa using h x hx

/-! ## collect -/

theorem collect_loop_spec (map : α → Nat) :
    ∀ (input : List α) (counters : List Nat), (∀ x ∈ input, map x + 1 < counters.length) →
      ∃ r, collect_loop map input counters = some r ∧ r.length = counters.length ∧
        ∀ i < counters.length, r[i]? =
          some (counters.getD i 0 + input.countP (fun x => decide (map x + 1 = i)))
  | [], counters, _ => by
    refine ⟨counters, rfl, rfl, ?_⟩
    intro i hi
    simp [List.getD_eq_getElem?_getD, List.getElem?_eq_getElem hi]
  | x :: rest, counters, hk => by
    have hx : map x + 1 < counters.length := hk x (List.mem_cons_self _ _)
    have hget : counters.get? (map x + 1) = some (counters.getD (map x + 1) 0) := by
      simp [List.getD_eq_getElem?_getD, List.getElem?_eq_getElem hx]
    obtain ⟨r, hr, hlen, hval⟩ := collect_loop_spec map rest
      (counters.set (map x + 1) (counters.getD (map x + 1) 0 + 1))
      (by
        intro y hy
        rw [List.length_set]
        exact hk y (List.mem_cons_of_mem _ hy))
    refine ⟨r, ?_, ?_, ?_⟩
    · simp only [collect_loop, increment_counter, hget]
      exact hr
    · rw [hlen, List.length_set]
    · intro i hi
      rw [hval i (by rw [List.length_set]; exact hi)]
      simp only [List.getD_eq_getElem?_getD, List.getElem?_set, List.countP_cons,
        decide_eq_true_eq]
      by_cases hxi : map x + 1 = i
      · subst hxi
        simp [hx]
        omega
      · simp [hxi]

theorem length_partial_sum_from : ∀ (l : List Nat) (acc : Nat),
    (partial_sum_from acc l).length = l.length
  | [], _ => rfl
  | c :: rest, acc => by simp [partial_sum_from, length_partial_sum_from rest]

theorem partial_sum_from_getElem? : ∀ (l : List Nat) (acc i : Nat), i < l.length →
    (partial_sum_from acc l)[i]? = some (acc + (l.take (i + 1)).sum)
  | [], _, _, hi => by simp at hi
  | c :: rest, acc, 0, _ => by simp [partial_sum_from]
  | c :: rest, acc, i + 1, hi => by
    have := partial_sum_from_getElem? rest (acc + c) i (by simpa using hi)
    simp only [partial_sum_from, List.getElem?_cons_succ, this, List.take_succ_cons,
      List.sum_cons]
    congr 1
    omega

/-- The sum of the first `i` counters after the counting loop. -/
theorem sum_take_counted (f : α → Nat) (input : List α) (counted : List Nat)
    (hval : ∀ j < counted.length, counted[j]? =
      some (input.countP (fun x => decide (f x + 1 = j)))) :
    ∀ i ≤ counted.length, (counted.take i).sum = input.countP (fun x => decide (f x + 1 < i))
  | 0, _ => by simp
  | i + 1, hi => by
    have ih := sum_take_counted f input counted hval i (by omega)
    rw [List.take_succ, List.sum_append, ih, hval i (by omega)]
    simp only [Option.toList, List.sum_cons, List.sum_nil, Nat.add_zero]
    exact countP_lt_succ (fun x => f x + 1) i input

/-- After `collect` every counter holds the number of the elements with a smaller key. -/
theorem collect_spec (map : α → Nat) (value_range : Nat) (input : List α)
    (hkeys : ∀ x ∈ input, map x < value_range) :
    ∃ counters, collect map input (List.replicate (value_range + 1) 0) = some counters ∧
      counters.length = value_range + 1 ∧
      ∀ i ≤ value_range, counters[i]? = some (input.countP (fun x => decide (map x < i))) := by
  obtain ⟨counted, hc, hlen, hval⟩ := collect_loop_spec map input
    (List.replicate (value_range + 1) 0)
    (by
      intro x hx
      have := hkeys x hx
      simp
      omega)
  rw [List.length_replicate] at hlen hval
  have hval' : ∀ j < counted.length, counted[j]? =
      some (input.countP (fun x => decide (map x + 1 = j))) := by
    intro j hj
    rw [hval j (by omega)]
    simp only [List.getD_eq_getElem?_getD, List.getElem?_replicate]
    split <;> simp
  refine ⟨partial_sum counted, by simp [collect, hc], ?_, ?_⟩
  · rw [partial_sum, length_partial_sum_from, hlen]
  · intro i hi
    rw [partial_sum, partial_sum_from_getElem? counted 0 i (by omega),
      sum_take_counted map input counted hval' (i + 1) (by omega)]
    simp

/-! ## dispose -/

theorem countP_append_singleton (p : α → Bool) (l : List α) (x : α) :
    (l ++ [x]).countP p = l.countP p + (if p x = true then 1 else 0) := by
  rw [List.countP_append, List.countP_cons, List.countP_nil]
  simp

/-- One write of `dispose` keeps the invariant. -/
theorem dispose_invariant_step (map : α → Nat) (value_range : Nat) (input done todo : List α)
    (x : α) (result : List α) (counters : List Nat)
    (hinput : input = done ++ x :: todo) (hkey : map x < value_range)
    (hroom : input.length ≤ result.length)
    (hinv : dispose_invariant map value_range input done result counters) :
    counters.get? (map x) = some (input.countP (fun y => decide (map y < map x)) +
        done.countP (fun y => decide (map y = map x))) ∧
      input.countP (fun y => decide (map y < map x)) +
        done.countP (fun y => decide (map y = map x)) < result.length ∧
      dispose_invariant map value_range input (done ++ [x])
        (result.set (input.countP (fun y => decide (map y < map x)) +
          done.countP (fun y => decide (map y = map x))) x)
        (counters.set (map x) (input.countP (fun y => decide (map y < map x)) +
          done.countP (fun y => decide (map y = map x)) + 1)) := by
  obtain ⟨hlen, hcnt, hres⟩ := hinv
  have hsplit := countP_lt_succ map (map x) input
  have hbound : input.countP (fun y => decide (map y < map x + 1)) ≤ input.length :=
    List.countP_le_length _
  have hdone : ∀ k, input.countP (fun y => decide (map y = k)) =
      done.countP (fun y => decide (map y = k)) +
        ((if map x = k then 1 else 0) + todo.countP (fun y => decide (map y = k))) := by
    intro k
    rw [hinput, List.countP_append, List.countP_cons]
    simp only [decide_eq_true_eq]
    omega
  have hdx := hdone (map x)
  rw [if_pos rfl] at hdx
  have hidx : input.countP (fun y => decide (map y < map x)) +
      done.countP (fun y => decide (map y = map x)) < result.length := by omega
  refine ⟨?_, hidx, ?_, ?_, ?_⟩
  · rw [List.get?_eq_getElem?]
    exact hcnt (map x) (by omega)
  · rw [List.length_set]
    exact hlen
  · intro k hk
    rw [List.getElem?_set, countP_append_singleton]
    simp only [decide_eq_true_eq]
    by_cases hxk : map x = k
    · subst hxk
      rw [if_pos rfl, if_pos (by omega), if_pos rfl, Nat.add_assoc]
    · rw [if_neg hxk, if_neg hxk, hcnt k hk]
      rfl
  · intro k hk j hj
    rw [countP_append_singleton] at hj
    simp only [decide_eq_true_eq] at hj
    rw [List.getElem?_set, List.filter_append]
    by_cases hxk : map x = k
    · subst hxk
      rw [if_pos rfl] at hj
      have hfx : [x].filter (fun y => decide (map y = map x)) = [x] := by simp
      rw [hfx]
      have hflen : (done.filter (fun y => decide (map y = map x))).length =
          done.countP (fun y => decide (map y = map x)) :=
        (List.countP_eq_length_filter _ _).symm
      by_cases hj' : j = done.countP (fun y => decide (map y = map x))
      · subst hj'
        rw [if_pos rfl, if_pos hidx, List.getElem?_append_right (by omega), hflen]
        simp
      · rw [if_neg (by omega), List.getElem?_append_left (by omega)]
        exact hres (map x) hk j (by omega)
    · rw [if_neg hxk] at hj
      have hfx : [x].filter (fun y => decide (map y = k)) = [] := by simp [hxk]
      rw [hfx, List.append_nil]
      have hdk := hdone k
      have hsk := countP_lt_succ map k input
      have hne : input.countP (fun y => decide (map y < map x)) +
          done.countP (fun y => decide (map y = map x)) ≠
          input.countP (fun y => decide (map y < k)) + j := by
        rcases Nat.lt_or_gt_of_ne hxk with hlt | hgt
        · have := countP_lt_mono map input (show map x + 1 ≤ k by omega)
          omega
        · have := countP_lt_mono map input (show k + 1 ≤ map x by omega)
          omega
      rw [if_neg hne]
      exact hres k hk j (by omega)

/-- The loop of `dispose` is defined on an output buffer with room for the input, and ends in
the state in which every element of the input has been written. -/
theorem dispose_spec (map : α → Nat) (value_range : Nat) (input : List α)
    (hkeys : ∀ x ∈ input, map x < value_range) :
    ∀ (todo done result : List α) (counters : List Nat), input = done ++ todo →
      input.length ≤ result.length →
      dispose_invariant map value_range input done result counters →
      ∃ sorted disposed, dispose map todo result counters = some (sorted, disposed) ∧
        sorted.length = result.length ∧
        dispose_invariant map value_range input input sorted disposed
  | [], done, result, counters, hinput, _, hinv => by
    rw [List.append_nil] at hinput
    subst hinput
    exact ⟨result, counters, rfl, rfl, hinv⟩
  | x :: todo, done, result, counters, hinput, hroom, hinv => by
    have hx : map x < value_range := hkeys x (by rw [hinput]; simp)
    obtain ⟨hget, hidx, hinv'⟩ :=
      dispose_invariant_step map value_range input done todo x result counters hinput hx hroom hinv
    obtain ⟨sorted, disposed, hd, hlen, hfinal⟩ := dispose_spec map value_range input hkeys todo
      (done ++ [x]) _ _ (by rw [hinput]; simp) (by rw [List.length_set]; exact hroom) hinv'
    refine ⟨sorted, disposed, ?_, ?_, hfinal⟩
    · simp only [dispose, hget, if_pos hidx]
      exact hd
    · rw [hlen, List.length_set]

/-! ## The sorted output -/

theorem by_keys_succ (map : α → Nat) (k : Nat) (input : List α) :
    by_keys map (k + 1) input = by_keys map k input ++ input.filter (fun x => decide (map x = k)) := by
  simp [by_keys, List.range_succ]

/-- In the final state of `dispose` the buffer starts with the elements ordered by key. -/
theorem take_eq_by_keys (map : α → Nat) (value_range : Nat) (input sorted : List α)
    (disposed : List Nat)
    (hinv : dispose_invariant map value_range input input sorted disposed) :
    ∀ k ≤ value_range,
      sorted.take (input.countP (fun x => decide (map x < k))) = by_keys map k input
  | 0, _ => by simp [by_keys]
  | k + 1, hk => by
    have ih := take_eq_by_keys map value_range input sorted disposed hinv k (by omega)
    rw [← countP_lt_succ map k input, List.take_add, ih, by_keys_succ]
    congr 1
    apply List.ext_getElem?
    intro j
    rw [List.getElem?_take, List.getElem?_drop]
    split
    · rename_i hj
      exact hinv.2.2 k (by omega) j hj
    · rename_i hj
      rw [List.getElem?_eq_none]
      rw [← List.countP_eq_length_filter]
      omega

theorem mem_by_keys (map : α → Nat) : ∀ (k : Nat) (input : List α) (x : α),
    x ∈ by_keys map k input ↔ x ∈ input ∧ map x < k
  | 0, input, x => by simp [by_keys]
  | k + 1, input, x => by
    rw [by_keys_succ, List.mem_append, mem_by_keys map k input x, List.mem_filter]
    simp only [decide_eq_true_eq]
    constructor
    · rintro (⟨h1, h2⟩ | ⟨h1, h2⟩)
      · exact ⟨h1, by omega⟩
      · exact ⟨h1, by omega⟩
    · rintro ⟨h1, h2⟩
      by_cases h3 : map x < k
      · exact Or.inl ⟨h1, h3⟩
      · exact Or.inr ⟨h1, by omega⟩

theorem by_keys_perm (map : α → Nat) : ∀ (k : Nat) (input : List α),
    (by_keys map k input).Perm (input.filter (fun x => decide (map x < k)))
  | 0, input => by simp [by_keys]
  | k + 1, input => by
    rw [by_keys_succ]
    have h1 : (input.filter (fun x => decide (map x < k + 1))).filter
        (fun x => decide (map x < k)) = input.filter (fun x => decide (map x < k)) := by
      rw [List.filter_filter]
      apply List.filter_congr
      intro x _
      by_cases h : map x < k
      · have : map x < k + 1 := by omega
        simp [h, this]
      · simp [h]
    have h2 : (input.filter (fun x => decide (map x < k + 1))).filter
        (fun x => !decide (map x < k)) = input.filter (fun x => decide (map x = k)) := by
      rw [List.filter_filter]
      apply List.filter_congr
      intro x _
      by_cases h : map x < k
      · have : ¬ map x = k := by omega
        simp [h, this]
      · by_cases h' : map x = k
        · simp [h']
        · have : ¬ map x < k + 1 := by omega
          simp [h, h', this]
    have h3 := List.filter_append_perm (fun x => decide (map x < k))
      (input.filter (fun x => decide (map x < k + 1)))
    rw [h1, h2] at h3
    exact ((by_keys_perm map k input).append_right _).trans h3

theorem by_keys_sorted (map : α → Nat) : ∀ (k : Nat) (input : List α),
    (by_keys map k input).Pairwise (fun a b => map a ≤ map b)
  | 0, input => by simp [by_keys]
  | k + 1, input => by
    rw [by_keys_succ, List.pairwise_append]
    refine ⟨by_keys_sorted map k input, ?_, ?_⟩
    · rw [List.pairwise_iff_forall_sublist]
      intro a b hab
      have ha := hab.subset (List.mem_cons_self a [b])
      have hb := hab.subset (List.mem_cons_of_mem a (List.mem_cons_self b []))
      simp only [List.mem_filter, decide_eq_true_eq] at ha hb
      omega
    · intro a ha b hb
      have ha' := ((mem_by_keys map k input a).1 ha).2
      simp only [List.mem_filter, decide_eq_true_eq] at hb
      omega

/-- The whole of `counting_sort_impl`: it is defined, the buffer keeps its length and starts
with the elements of the input ordered by key, elements of equal key in input order, and the
returned iterator stands behind them. -/
theorem counting_sort_impl_spec (value_range : Nat) (map : α → Nat) (input result : List α)
    (hkeys : ∀ x ∈ input, map x < value_range) (hroom : input.length ≤ result.length) :
    ∃ sorted, counting_sort_impl value_range map input result = some (sorted, input.length) ∧
      sorted.length = result.length ∧
      sorted.take input.length = by_keys map value_range input := by
  obtain ⟨counters, hcollect, hclen, hcval⟩ := collect_spec map value_range input hkeys
  have hinit : dispose_invariant map value_range input [] result counters := by
    refine ⟨hclen, ?_, ?_⟩
    · intro k hk
      rw [hcval k hk]
      simp
    · intro k _ j hj
      simp at hj
  obtain ⟨sorted, disposed, hd, hlen, hfinal⟩ := dispose_spec map value_range input hkeys
    input [] result counters rfl hroom hinit
  have hlast : cback disposed = some input.length := by
    rw [cback, List.getLast?_eq_getElem?, hfinal.1, Nat.add_sub_cancel,
      hfinal.2.1 value_range (le_refl _), countP_lt_eq_length map input value_range hkeys]
    have : input.countP (fun x => decide (map x = value_range)) = 0 := by
      rw [List.countP_eq_zero]
      intro x hx
      have := hkeys x hx
      simp only [decide_eq_true_eq]
      omega
    rw [this]
    rfl
  refine ⟨sorted, ?_, hlen, ?_⟩
  · simp [counting_sort_impl, hcollect, hd, hlast]
  · have := take_eq_by_keys map value_range input sorted disposed hfinal value_range (le_refl _)
    rw [countP_lt_eq_length map input value_range hkeys] at this
    exact this

/-! ## The prefix selected by increment -/

theorem for_each_advance_tail : ∀ (l : List (List α)), (∀ c ∈ l, c ≠ []) →
    for_each_advance l = some (l.map List.tail)
  | [], _ => rfl
  | [] :: rest, hne => absurd rfl (hne [] (List.mem_cons_self _ _))
  | (x :: t) :: rest, hne => by
    have := for_each_advance_tail rest (fun c hc => hne c (List.mem_cons_of_mem _ hc))
    simp [for_each_advance, advance_begin_1, this]

theorem filter_append_no_empty (advanced suffix : List (List α)) (hne : ∀ c ∈ suffix, c ≠ []) :
    (advanced ++ suffix).filter (fun range => !empty range) =
      advanced.filter (fun range => !empty range) ++ suffix := by
  rw [List.filter_append]
  congr 1
  rw [List.filter_eq_self]
  intro c hc
  exact (empty_eq_false_iff c).2 (hne c hc)

/-- The steps of `increment` on a state without empty ranges that is sorted by front: the
search is defined and selects a prefix that is not empty, consists of the ranges whose front
is equivalent to the current element `m`, and leaves behind it the ranges whose front is
greater; every range of the prefix can be advanced. -/
theorem increment_prefix_spec {compare : α → α → Bool} (h : StrictWeakOrder compare)
    (m : α) (t : List α) (rest : List (List α))
    (hne : ∀ c ∈ (m :: t) :: rest, c ≠ [])
    (hs : sorted_by_front compare ((m :: t) :: rest)) :
    ∃ k, upper_bound (compare_by_front_value compare) ((m :: t) :: rest) (m :: t) = some k ∧
      0 < k ∧
      (∀ c ∈ ((m :: t) :: rest).take k, ∃ x u, c = x :: u ∧ equiv compare m x = true) ∧
      (∀ c ∈ ((m :: t) :: rest).drop k, ∃ x u, c = x :: u ∧ compare m x = true) ∧
      for_each_advance (((m :: t) :: rest).take k) =
        some ((((m :: t) :: rest).take k).map List.tail) ∧
      increment compare ((m :: t) :: rest) =
        std_sort (compare_by_front_value compare)
          (List.filter (fun range => !empty range)
            ((((m :: t) :: rest).take k).map List.tail ++ ((m :: t) :: rest).drop k)) := by
  obtain ⟨l₁, l₂, hl, hl₁, hl₂⟩ := sorted_by_front_split h m _ hne hs
  have hub : upper_bound (compare_by_front_value compare) ((m :: t) :: rest) (m :: t) =
      some l₁.length := by
    rw [hl]
    apply upper_bound_partition
    · intro c hc
      obtain ⟨x, u, rfl, hx⟩ := hl₁ c hc
      simp [compare_by_front_value, front, hx]
    · intro c hc
      obtain ⟨x, u, rfl, hx⟩ := hl₂ c hc
      simp [compare_by_front_value, front, hx]
  have htake : ((m :: t) :: rest).take l₁.length = l₁ := by rw [hl]; simp
  have hdrop : ((m :: t) :: rest).drop l₁.length = l₂ := by rw [hl]; simp
  have hfront : ∀ c ∈ (m :: t) :: rest, ∀ x u, c = x :: u → compare x m = false := by
    intro c hc x u hcx
    rcases List.mem_cons.1 hc with hc' | hc'
    · rw [hcx] at hc'
      cases hc'
      exact h.irrefl _
    · have := (List.pairwise_cons.1 hs).1 c hc'
      rw [hcx] at this
      simpa [compare_by_front_value, front] using this
  have hadv : for_each_advance l₁ = some (l₁.map List.tail) :=
    for_each_advance_tail l₁ (fun c hc => hne c (by rw [hl]; exact List.mem_append_left _ hc))
  refine ⟨l₁.length, hub, ?_, ?_, ?_, ?_, ?_⟩
  · cases l₁ with
    | nil =>
      have hmem : (m :: t) ∈ l₂ := by
        have : (m :: t) ∈ (m :: t) :: rest := List.mem_cons_self _ _
        rw [hl] at this
        simpa using this
      obtain ⟨x, u, hxu, hx⟩ := hl₂ _ hmem
      cases hxu
      rw [h.irrefl] at hx
      exact absurd hx (by simp)
    | cons c l₁ => simp
  · rw [htake]
    intro c hc
    obtain ⟨x, u, hxu, hx⟩ := hl₁ c hc
    refine ⟨x, u, hxu, ?_⟩
    have := hfront c (by rw [hl]; exact List.mem_append_left _ hc) x u hxu
    simp [equiv, hx, this]
  · rw [hdrop]
    exact hl₂
  · rw [htake]
    exact hadv
  · rw [htake, hdrop]
    unfold increment
    simp only [hub, front, htake, hdrop, hadv]

/-! ## Sorting a sorted collection -/

/-- Sorting a list that is sorted already changes nothing. -/
theorem std_sort_of_sorted (compare : α → α → Bool) :
    ∀ (l : List (List α)), sorted_by_front compare l →
      std_sort (compare_by_front_value compare) l = some l
  | [], _ => rfl
  | c :: rest, hs => by
    have ih := std_sort_of_sorted compare rest (List.pairwise_cons.1 hs).2
    simp only [std_sort, ih]
    cases rest with
    | nil => rfl
    | cons b rest =>
      have := (List.pairwise_cons.1 hs).1 b (List.mem_cons_self _ _)
      simp [ordered_insert, this]

/-! ## Insertion of the advanced ranges instead of sorting -/

theorem less_by_key_swo : StrictWeakOrder less_by_key := by
  refine ⟨?_, ?_, ?_⟩
  · intro a; simp [less_by_key]
  · intro a b c; simp only [less_by_key, decide_eq_true_eq]; omega
  · intro a b c; simp only [less_by_key, decide_eq_false_iff_not]; omega

/-- Equivalent values compare alike with every value. -/
theorem compare_congr_left {compare : α → α → Bool} (h : StrictWeakOrder compare) {m m' : α}
    (h₁ : compare m m' = false) (h₂ : compare m' m = false) (x : α) :
    compare m x = compare m' x := by
  cases hx : compare m x with
  | true => exact (h.lt_of_le_of_lt h₁ hx).symm
  | false =>
    cases hx' : compare m' x with
    | false => rfl
    | true =>
      have := h.lt_of_le_of_lt h₂ hx'
      rw [hx] at this
      exact this

theorem advance_matching_congr {compare : α → α → Bool} (h : StrictWeakOrder compare)
    {m m' : α} (h₁ : compare m m' = false) (h₂ : compare m' m = false) (c : List α) :
    advance_matching compare m c = advance_matching compare m' c := by
  cases c with
  | nil => rfl
  | cons x t => simp only [advance_matching, compare_congr_left h h₁ h₂ x]

/-- Insertion by binary search into a list of non-empty ranges that is sorted by front is
defined and returns a permutation that is sorted by front. -/
theorem insert_sorted_ranges {compare : α → α → Bool} (h : StrictWeakOrder compare)
    (x : α) (t : List α) (xs : List (List α)) (hne : ∀ c ∈ xs, c ≠ [])
    (hs : sorted_by_front compare xs) :
    ∃ r, insert_sorted (compare_by_front_value compare) (x :: t) xs = some r ∧
      r.Perm ((x :: t) :: xs) ∧ sorted_by_front compare r := by
  obtain ⟨l₁, l₂, hl, hl₁, hl₂⟩ := sorted_by_front_split h x xs hne hs
  have hub : upper_bound (compare_by_front_value compare) xs (x :: t) = some l₁.length := by
    rw [hl]
    apply upper_bound_partition
    · intro c hc
      obtain ⟨y, u, rfl, hy⟩ := hl₁ c hc
      simp [compare_by_front_value, front, hy]
    · intro c hc
      obtain ⟨y, u, rfl, hy⟩ := hl₂ c hc
      simp [compare_by_front_value, front, hy]
  have htake : xs.take l₁.length = l₁ := by rw [hl]; simp
  have hdrop : xs.drop l₁.length = l₂ := by rw [hl]; simp
  refine ⟨l₁ ++ (x :: t) :: l₂, by simp only [insert_sorted, hub, htake, hdrop], ?_, ?_⟩
  · rw [hl]
    exact List.perm_middle
  · unfold sorted_by_front at hs ⊢
    rw [hl, List.pairwise_append] at hs
    obtain ⟨hp₁, hp₂, hcross⟩ := hs
    rw [List.pairwise_append]
    refine ⟨hp₁, List.pairwise_cons.2 ⟨?_, hp₂⟩, ?_⟩
    · intro d hd
      obtain ⟨y, u, rfl, hy⟩ := hl₂ d hd
      simp only [compare_by_front_value, front, Option.some.injEq]
      exact h.asymm hy
    · intro c hc d hd
      rcases List.mem_cons.1 hd with rfl | hd
      · obtain ⟨y, u, rfl, hy⟩ := hl₁ c hc
        simp only [compare_by_front_value, front, Option.some.injEq]
        exact hy
      · exact hcross c hc d hd

theorem reinsert_ranges {compare : α → α → Bool} (h : StrictWeakOrder compare) :
    ∀ (advanced suffix : List (List α)), (∀ c ∈ advanced, c ≠ []) → (∀ c ∈ suffix, c ≠ []) →
      sorted_by_front compare suffix →
      ∃ r, reinsert (compare_by_front_value compare) advanced suffix = some r ∧
        r.Perm (advanced ++ suffix) ∧ sorted_by_front compare r
  | [], suffix, _, _, hs => ⟨suffix, rfl, List.Perm.refl _, hs⟩
  | [] :: advanced, _, hna, _, _ => absurd rfl (hna [] (List.mem_cons_self _ _))
  | (x :: t) :: advanced, suffix, hna, hns, hs => by
    obtain ⟨inserted, hi, hperm, hsi⟩ := insert_sorted_ranges h x t suffix hns hs
    have hni : ∀ c ∈ inserted, c ≠ [] := by
      intro c hc
      rcases List.mem_cons.1 (hperm.mem_iff.1 hc) with rfl | hc'
      · simp
      · exact hns c hc'
    obtain ⟨r, hr, hperm', hsr⟩ := reinsert_ranges h advanced inserted
      (fun c hc => hna c (List.mem_cons_of_mem _ hc)) hni hsi
    refine ⟨r, by simp only [reinsert, hi, hr], ?_, hsr⟩
    refine hperm'.trans ?_
    refine (List.Perm.append_left advanced hperm).trans ?_
    exact List.perm_middle

/-- The effect of `increment_reinsert` on a state without empty ranges that is sorted by front
is the one of `increment`: it is defined, and the new state is a permutation of `next_ranges`
that is again sorted by front. -/
theorem increment_reinsert_spec {compare : α → α → Bool} (h : StrictWeakOrder compare)
    (m : α) (t : List α) (rest : List (List α))
    (hne : ∀ c ∈ (m :: t) :: rest, c ≠ [])
    (hs : sorted_by_front compare ((m :: t) :: rest)) :
    ∃ next, increment_reinsert compare ((m :: t) :: rest) = some next ∧
      next.Perm (next_ranges compare m ((m :: t) :: rest)) ∧
      sorted_by_front compare next ∧ (∀ c ∈ next, c ≠ []) := by
  obtain ⟨l₁, l₂, hl, hl₁, hl₂⟩ := sorted_by_front_split h m _ hne hs
  have hub : upper_bound (compare_by_front_value compare) ((m :: t) :: rest) (m :: t) =
      some l₁.length := by
    rw [hl]
    apply upper_bound_partition
    · intro c hc
      obtain ⟨x, u, rfl, hx⟩ := hl₁ c hc
      simp [compare_by_front_value, front, hx]
    · intro c hc
      obtain ⟨x, u, rfl, hx⟩ := hl₂ c hc
      simp [compare_by_front_value, front, hx]
  have htake : ((m :: t) :: rest).take l₁.length = l₁ := by rw [hl]; simp
  have hdrop : ((m :: t) :: rest).drop l₁.length = l₂ := by rw [hl]; simp
  have hne₂ : ∀ c ∈ l₂, c ≠ [] :=
    fun c hc => hne c (by rw [hl]; exact List.mem_append_right _ hc)
  have hs₂ : sorted_by_front compare l₂ := by
    unfold sorted_by_front at hs ⊢
    rw [hl, List.pairwise_append] at hs
    exact hs.2.1
  have hnext : next_ranges compare m ((m :: t) :: rest) =
      (l₁.map (advance_matching compare m)).filter (fun range => !empty range) ++ l₂ := by
    unfold next_ranges
    rw [hl, List.map_append, map_advance_matching_eq compare m l₂ hl₂,
      filter_append_no_empty _ _ hne₂]
  obtain ⟨next, hre, hperm, hsorted⟩ := reinsert_ranges h
    ((l₁.map (advance_matching compare m)).filter (fun range => !empty range)) l₂
    (fun c hc => (empty_eq_false_iff c).1 (List.mem_filter.1 hc).2) hne₂ hs₂
  rw [← hnext] at hperm
  refine ⟨next, ?_, hperm, hsorted, ?_⟩
  · unfold increment_reinsert
    simp only [hub, front, htake, hdrop, for_each_advance_eq compare m l₁ hl₁]
    exact hre
  · intro c hc
    exact next_ranges_ne_nil compare m _ c (hperm.mem_iff.1 hc)

theorem iterate_nil [DecidableEq α] (compare : α → α → Bool) (fuel : Nat) :
    iterate compare fuel ([] : List (List α)) = some [] := by
  cases fuel <;> simp [iterate, equal_end_nil]

theorem iterate_reinsert_nil [DecidableEq α] (compare : α → α → Bool) (fuel : Nat) :
    iterate_reinsert compare fuel ([] : List (List α)) = some [] := by
  cases fuel <;> simp [iterate_reinsert, equal_end_nil]

/-- From two states with the same ranges, both without empty ranges and sorted by front, the
iteration that sorts and the iteration that inserts end and yield lists of the same length
whose elements are equivalent position by position. -/
theorem iterate_reinsert_equiv [DecidableEq α] {compare : α → α → Bool}
    (h : StrictWeakOrder compare) :
    ∀ (fuel fuel' : Nat) (it it' : List (List α)), (∀ c ∈ it, c ≠ []) →
      sorted_by_front compare it → (∀ c ∈ it', c ≠ []) → sorted_by_front compare it' →
      it.Perm it' → total_size it ≤ fuel → total_size it' ≤ fuel' →
      ∃ out out', iterate compare fuel it = some out ∧
        iterate_reinsert compare fuel' it' = some out' ∧
        List.Forall₂ (fun a b => equiv compare a b = true) out out'
  | 0, fuel', it, it', hne, _, _, _, hperm, hsize, _ => by
    have : it = [] := total_size_eq_zero hne (by omega)
    subst this
    have : it' = [] := List.nil_perm.1 hperm
    subst this
    exact ⟨[], [], iterate_nil compare 0, iterate_reinsert_nil compare fuel', List.Forall₂.nil⟩
  | fuel + 1, fuel', [], it', _, _, _, _, hperm, _, _ => by
    have : it' = [] := List.nil_perm.1 hperm
    subst this
    exact ⟨[], [], iterate_nil compare _, iterate_reinsert_nil compare fuel', List.Forall₂.nil⟩
  | fuel + 1, _, [] :: rest, _, hne, _, _, _, _, _, _ =>
    absurd rfl (hne [] (List.mem_cons_self _ _))
  | fuel + 1, _, (m :: t) :: rest, [], _, _, _, _, hperm, _, _ => by
    have := hperm.length_eq
    simp at this
  | fuel + 1, _, (m :: t) :: rest, [] :: rest', _, _, hne', _, _, _, _ =>
    absurd rfl (hne' [] (List.mem_cons_self _ _))
  | fuel + 1, 0, (m :: t) :: rest, (m' :: t') :: rest', _, _, _, _, _, _, hsize' => by
    rw [total_size_cons] at hsize'
    simp at hsize'
  | fuel + 1, fuel' + 1, (m :: t) :: rest, (m' :: t') :: rest', hne, hs, hne', hs', hperm,
      hsize, hsize' => by
    obtain ⟨next, hinc, hpn, hsn, hnn⟩ := increment_spec h m t rest hne hs
    obtain ⟨next', hinc', hpn', hsn', hnn'⟩ := increment_reinsert_spec h m' t' rest' hne' hs'
    have hfront : ∀ (a b : α) (u v : List α) (l l' : List (List α)),
        sorted_by_front compare ((a :: u) :: l) → (b :: v) ∈ (a :: u) :: l →
        compare b a = false := by
      intro a b u v l l' hsl hmem
      rcases List.mem_cons.1 hmem with heq | hmem'
      · cases heq
        exact h.irrefl _
      · have := (List.pairwise_cons.1 hsl).1 _ hmem'
        simpa [compare_by_front_value, front] using this
    have h₁ : compare m m' = false :=
      hfront m' m t' t rest' rest hs' (hperm.mem_iff.1 (List.mem_cons_self _ _))
    have h₂ : compare m' m = false :=
      hfront m m' t t' rest rest' hs (hperm.mem_iff.2 (List.mem_cons_self _ _))
    have hnext : next.Perm next' := by
      refine hpn.trans (List.Perm.trans ?_ hpn'.symm)
      unfold next_ranges
      have hmap : ((m' :: t') :: rest').map (advance_matching compare m') =
          ((m' :: t') :: rest').map (advance_matching compare m) :=
        List.map_congr_left (fun c _ => (advance_matching_congr h h₁ h₂ c).symm)
      rw [hmap]
      exact (hperm.map _).filter _
    have hlt := total_size_next_ranges_lt compare m t rest (h.irrefl m)
    rw [← total_size_perm hpn] at hlt
    have hlt' := total_size_next_ranges_lt compare m' t' rest' (h.irrefl m')
    rw [← total_size_perm hpn'] at hlt'
    obtain ⟨out, out', hout, hout', hall⟩ := iterate_reinsert_equiv h fuel fuel' next next'
      hnn hsn hnn' hsn' hnext (by omega) (by omega)
    refine ⟨m :: out, m' :: out', ?_, ?_, List.Forall₂.cons ?_ hall⟩
    · simp [iterate, equal_end_cons, dereference, front, hinc, hout]
    · simp [iterate_reinsert, equal_end_cons, dereference, front, hinc', hout']
    · simp [equiv, h₁, h₂]

theorem count_equiv_of_forall₂ {compare : α → α → Bool} (h : StrictWeakOrder compare) (v : α)
    {out out' : List α} (hall : List.Forall₂ (fun a b => equiv compare a b = true) out out') :
    count_equiv compare v out = count_equiv compare v out' := by
  induction hall with
  | nil => rfl
  | cons hab _ ih =>
    simp only [count_equiv, List.countP_cons] at ih ⊢
    rw [ih, equiv_congr_right h hab v]

theorem eq_of_forall₂_equiv {compare : α → α → Bool}
    (htotal : ∀ a b, compare a b = false → compare b a = false → a = b)
    {out out' : List α} (hall : List.Forall₂ (fun a b => equiv compare a b = true) out out') :
    out = out' := by
  induction hall with
  | nil => rfl
  | cons hab _ ih =>
    simp only [equiv, Bool.and_eq_true, Bool.not_eq_true'] at hab
    rw [htotal _ _ hab.1 hab.2, ih]

/-! ## Number of rounds -/

theorem length_le_advance_matching (compare : α → α → Bool) (m : α) (c : List α) :
    c.length ≤ (advance_matching compare m c).length + 1 := by
  cases c with
  | nil => simp
  | cons x t =>
    simp only [advance_matching]
    split <;> simp

/-- The iteration takes at least as many rounds as the longest range has elements. -/
theorem iterate_length_ge [DecidableEq α] {compare : α → α → Bool}
    (h : StrictWeakOrder compare) :
    ∀ (fuel : Nat) (it : List (List α)) (out : List α), (∀ c ∈ it, c ≠ []) →
      sorted_by_front compare it → iterate compare fuel it = some out →
      ∀ c ∈ it, c.length ≤ out.length
  | 0, it, out, _, _, hit => by
    simp only [iterate] at hit
    split at hit
    · rename_i heq
      simp only [equal, make_union_iterator_end, decide_eq_true_eq] at heq
      subst heq
      simp
    · simp at hit
  | fuel + 1, [], out, _, _, _ => by simp
  | fuel + 1, [] :: rest, _, hne, _, _ => absurd rfl (hne [] (List.mem_cons_self _ _))
  | fuel + 1, (m :: t) :: rest, out, hne, hs, hit => by
    obtain ⟨next, hinc, hperm, hsn, hnn⟩ := increment_spec h m t rest hne hs
    simp only [iterate, equal_end_cons, dereference, front, hinc] at hit
    cases hrest : iterate compare fuel next with
    | none => rw [hrest] at hit; simp at hit
    | some values =>
      rw [hrest] at hit
      simp at hit
      subst hit
      have ih := iterate_length_ge h fuel next values hnn hsn hrest
      intro c hc
      have hlen := length_le_advance_matching compare m c
      by_cases hempty : advance_matching compare m c = []
      · rw [hempty] at hlen
        simp at hlen ⊢
        omega
      · have hmem : advance_matching compare m c ∈ next := by
          apply hperm.mem_iff.2
          simp only [next_ranges, List.mem_filter]
          exact ⟨List.mem_map_of_mem _ hc, (empty_eq_false_iff _).2 hempty⟩
        have := ih _ hmem
        simp
        omega

/-! ## Uniqueness of the sorted output -/

theorem max_count_same_ranges (compare : α → α → Bool) (v : α) {l l' : List (List α)}
    (h : ∀ c, c ∈ l ↔ c ∈ l') : max_count compare v l = max_count compare v l' := by
  apply le_antisymm
  · exact (max_count_le_iff compare v _ l).2
      (fun c hc => count_le_max_count compare v ((h c).1 hc))
  · exact (max_count_le_iff compare v _ l').2
      (fun c hc => count_le_max_count compare v ((h c).2 hc))

/-- Under a total order two sorted lists with the same multiplicities are equal. -/
theorem sorted_eq_of_count_eq [DecidableEq α] (compare : α → α → Bool)
    (htotal : ∀ a b, compare a b = false → compare b a = false → a = b)
    (out₁ out₂ : List α)
    (h₁ : out₁.Pairwise (fun a b => compare b a = false))
    (h₂ : out₂.Pairwise (fun a b => compare b a = false))
    (hcount : ∀ v, out₁.count v = out₂.count v) : out₁ = out₂ := by
  haveI : IsAntisymm α (fun a b => compare b a = false) :=
    ⟨fun a b hab hba => htotal a b hba hab⟩
  exact List.eq_of_perm_of_sorted (List.perm_iff_count.2 hcount) h₁ h₂

/-! ## Stability -/

theorem filter_filter_key (map : α → Nat) (k j : Nat) (input : List α) :
    (input.filter (fun x => decide (map x = j))).filter (fun x => decide (map x = k)) =
      if k = j then input.filter (fun x => decide (map x = k)) else [] := by
  rw [List.filter_filter]
  by_cases hkj : k = j
  · subst hkj
    rw [if_pos rfl]
    apply List.filter_congr
    intro x _
    simp
  · rw [if_neg hkj, List.filter_eq_nil_iff]
    intro x _
    simp only [Bool.and_eq_true, decide_eq_true_eq, not_and]
    intro h1 h2
    exact hkj (h1.symm.trans h2)

/-- The elements with the key `k` stand in the sorted output in their input order. -/
theorem filter_by_keys (map : α → Nat) (k : Nat) (input : List α) :
    ∀ (value_range : Nat),
      (by_keys map value_range input).filter (fun x => decide (map x = k)) =
        if k < value_range then input.filter (fun x => decide (map x = k)) else []
  | 0 => by simp [by_keys]
  | value_range + 1 => by
    rw [by_keys_succ, List.filter_append, filter_by_keys map k input value_range,
      filter_filter_key]
    by_cases h1 : k < value_range
    · have h2 : ¬ k = value_range := by omega
      have h3 : k < value_range + 1 := by omega
      rw [if_pos h1, if_neg h2, if_pos h3, List.append_nil]
    · by_cases h2 : k = value_range
      · have h3 : k < value_range + 1 := by omega
        rw [if_neg h1, if_pos h2, if_pos h3, List.nil_append]
      · have h3 : ¬ k < value_range + 1 := by omega
        rw [if_neg h1, if_neg h2, if_neg h3, List.append_nil]

/-! ## The indices written by dispose -/

/-- The buffer that `dispose` returns is the buffer after the writes at `dispose_indices`. -/
theorem dispose_eq_write_all (map : α → Nat) :
    ∀ (todo result : List α) (counters : List Nat) (sorted : List α) (disposed : List Nat),
      dispose map todo result counters = some (sorted, disposed) →
      ∃ indices, dispose_indices map todo counters = some indices ∧
        sorted = write_all indices todo result
  | [], result, counters, sorted, disposed, h => by
    simp only [dispose, Option.some.injEq, Prod.mk.injEq] at h
    exact ⟨[], rfl, by rw [← h.1]; rfl⟩
  | x :: todo, result, counters, sorted, disposed, h => by
    simp only [dispose] at h
    cases hget : counters.get? (map x) with
    | none => rw [hget] at h; simp at h
    | some index =>
      rw [hget] at h
      simp only at h
      split at h
      · obtain ⟨indices, hi, hw⟩ := dispose_eq_write_all map todo _ _ sorted disposed h
        exact ⟨index :: indices, by simp only [dispose_indices, hget, hi], by rw [hw]; rfl⟩
      · simp at h

/-- The indices written after the elements `done` are distinct and lie, for every key, behind
the positions taken by `done` and before the positions of the next key. -/
theorem dispose_indices_spec (map : α → Nat) (value_range : Nat) (input : List α)
    (hkeys : ∀ x ∈ input, map x < value_range) :
    ∀ (todo done : List α) (counters : List Nat), input = done ++ todo →
      (∀ k ≤ value_range, counters[k]? =
        some (input.countP (fun x => decide (map x < k)) +
          done.countP (fun x => decide (map x = k)))) →
      ∃ indices, dispose_indices map todo counters = some indices ∧
        indices.length = todo.length ∧ indices.Nodup ∧
        ∀ i ∈ indices, ∃ k < value_range,
          input.countP (fun x => decide (map x < k)) +
            done.countP (fun x => decide (map x = k)) ≤ i ∧
          i < input.countP (fun x => decide (map x < k)) +
            input.countP (fun x => decide (map x = k))
  | [], _, _, _, _ => ⟨[], rfl, rfl, List.nodup_nil, by simp⟩
  | x :: todo, done, counters, hinput, hcnt => by
    have hx : map x < value_range := hkeys x (by rw [hinput]; simp)
    have hdone : ∀ k, input.countP (fun y => decide (map y = k)) =
        done.countP (fun y => decide (map y = k)) +
          ((if map x = k then 1 else 0) + todo.countP (fun y => decide (map y = k))) := by
      intro k
      rw [hinput, List.countP_append, List.countP_cons]
      simp only [decide_eq_true_eq]
      omega
    have hdone' : ∀ k, (done ++ [x]).countP (fun y => decide (map y = k)) =
        done.countP (fun y => decide (map y = k)) + (if map x = k then 1 else 0) := by
      intro k
      rw [countP_append_singleton]
      simp only [decide_eq_true_eq]
    have hget : counters.get? (map x) = some (input.countP (fun y => decide (map y < map x)) +
        done.countP (fun y => decide (map y = map x))) := by
      rw [List.get?_eq_getElem?]
      exact hcnt (map x) (by omega)
    have hlen : map x < counters.length := by
      have := hcnt (map x) (by omega)
      by_contra hcon
      rw [List.getElem?_eq_none (by omega)] at this
      simp at this
    obtain ⟨indices, hi, hilen, hnodup, hrange⟩ := dispose_indices_spec map value_range input
      hkeys todo (done ++ [x])
      (counters.set (map x) (input.countP (fun y => decide (map y < map x)) +
        done.countP (fun y => decide (map y = map x)) + 1))
      (by rw [hinput]; simp)
      (by
        intro k hk
        rw [List.getElem?_set, hdone' k]
        by_cases hxk : map x = k
        · subst hxk
          rw [if_pos rfl, if_pos hlen, if_pos rfl, Nat.add_assoc]
        · rw [if_neg hxk, if_neg hxk, hcnt k hk]
          rfl)
    refine ⟨(input.countP (fun y => decide (map y < map x)) +
        done.countP (fun y => decide (map y = map x))) :: indices,
      by simp only [dispose_indices, hget, hi], by simp [hilen], ?_, ?_⟩
    · refine List.nodup_cons.2 ⟨?_, hnodup⟩
      intro hmem
      obtain ⟨k, hk, hlo, hhi⟩ := hrange _ hmem
      rw [hdone' k] at hlo
      have hsk := countP_lt_succ map k input
      have hsx := countP_lt_succ map (map x) input
      have hdk := hdone k
      have hdx := hdone (map x)
      rw [if_pos rfl] at hdx
      by_cases hxk : map x = k
      · subst hxk
        rw [if_pos rfl] at hlo
        omega
      · rcases Nat.lt_or_gt_of_ne hxk with hlt | hgt
        · have := countP_lt_mono map input (show map x + 1 ≤ k by omega)
          omega
        · have := countP_lt_mono map input (show k + 1 ≤ map x by omega)
          omega
    · intro i hi'
      rcases List.mem_cons.1 hi' with rfl | hi'
      · have hdx := hdone (map x)
        rw [if_pos rfl] at hdx
        exact ⟨map x, hx, le_refl _, by omega⟩
      · obtain ⟨k, hk, hlo, hhi⟩ := hrange i hi'
        rw [hdone' k] at hlo
        exact ⟨k, hk, by omega, hhi⟩

/-- The last counter after `dispose` is still the number of the elements. -/
theorem cback_disposed (map : α → Nat) (value_range : Nat) (input sorted : List α)
    (disposed : List Nat) (hkeys : ∀ x ∈ input, map x < value_range)
    (hfinal : dispose_invariant map value_range input input sorted disposed) :
    disposed[value_range]? = some input.length ∧ cback disposed = some input.length := by
  have hzero : input.countP (fun x => decide (map x = value_range)) = 0 := by
    rw [List.countP_eq_zero]
    intro x hx
    have := hkeys x hx
    simp only [decide_eq_true_eq]
    omega
  have hlast : disposed[value_range]? = some input.length := by
    rw [hfinal.2.1 value_range (le_refl _), countP_lt_eq_length map input value_range hkeys,
      hzero]
    rfl
  refine ⟨hlast, ?_⟩
  rw [cback, List.getLast?_eq_getElem?, hfinal.1, Nat.add_sub_cancel]
  exact hlast

theorem iterate_length_le_fuel [DecidableEq α] (compare : α → α → Bool) :
    ∀ (fuel : Nat) (it : List (List α)) (out : List α),
      iterate compare fuel it = some out → out.length ≤ fuel
  | 0, it, out, hit => by
    simp only [iterate] at hit
    split at hit
    · cases hit; simp
    · simp at hit
  | fuel + 1, it, out, hit => by
    simp only [iterate] at hit
    split at hit
    · cases hit; simp
    · split at hit
      · simp at hit
      · split at hit
        · simp at hit
        · rename_i next _
          split at hit
          · simp at hit
          · rename_i values hvalues
            cases hit
            have := iterate_length_le_fuel compare fuel next values hvalues
            simp
            omega

/-! # The claims -/

/-- C1 (multiplicity law): for sorted inputs under a strict weak ordering the union is defined,
and for every value `v` the number of elements of the output equivalent to `v` is the maximum
over the inputs of the number of elements equivalent to `v`; when equivalence is equality, this
is the maximum of the plain occurrence counts. -/
theorem union_multiplicity_law [DecidableEq α] (compare : α → α → Bool)
    (ranges : List (List α)) (h : StrictWeakOrder compare)
    (hsorted : ∀ r ∈ ranges, is_sorted compare r = true) :
    ∃ out, union_elements compare ranges = some out ∧
      (∀ v, count_equiv compare v out = max_count compare v ranges) ∧
      ((∀ a b, compare a b = false → compare b a = false → a = b) →
        ∀ v, out.count v = (ranges.map (List.count v)).foldr max 0) := by
  obtain ⟨it, out, _, _, hout, _, hcount, _⟩ := union_elements_spec h ranges hsorted
  refine ⟨out, hout, hcount, ?_⟩
  intro htotal v
  rw [← count_equiv_eq_count compare h.irrefl htotal, hcount v]
  unfold max_count
  congr 1
  apply List.map_congr_left
  intro r _
  exact count_equiv_eq_count compare h.irrefl htotal v r

theorem union_multiplicity_law_witness :
    StrictWeakOrder less ∧ (∀ r ∈ [[1, 1, 2], [1, 2, 2], [1]], is_sorted less r = true) ∧
    union_elements less [[1, 1, 2], [1, 2, 2], [1]] = some [1, 1, 2, 2] ∧
    ∃ out, union_elements less [[1, 1, 2], [1, 2, 2], [1]] = some out ∧
      (∀ v, count_equiv less v out = max_count less v [[1, 1, 2], [1, 2, 2], [1]]) ∧
      ((∀ a b, less a b = false → less b a = false → a = b) →
        ∀ v, out.count v = ([[1, 1, 2], [1, 2, 2], [1]].map (List.count v)).foldr max 0) :=
  ⟨less_swo, by decide, by decide,
    union_multiplicity_law less [[1, 1, 2], [1, 2, 2], [1]] less_swo (by decide)⟩

/-- C2 (order law): for sorted inputs under a strict weak ordering the union is defined and no
element of the output is strictly less than an element yielded before it. -/
theorem union_order_law [DecidableEq α] (compare : α → α → Bool)
    (ranges : List (List α)) (h : StrictWeakOrder compare)
    (hsorted : ∀ r ∈ ranges, is_sorted compare r = true) :
    ∃ out, union_elements compare ranges = some out ∧
      out.Pairwise (fun a b => compare b a = false) := by
  obtain ⟨it, out, _, _, hout, _, _, hpair⟩ := union_elements_spec h ranges hsorted
  exact ⟨out, hout, hpair⟩

theorem union_order_law_witness :
    StrictWeakOrder greater ∧ (∀ r ∈ [[3, 2, 1]], is_sorted greater r = true) ∧
    union_elements greater [[3, 2, 1]] = some [3, 2, 1] ∧
    ∃ out, union_elements greater [[3, 2, 1]] = some out ∧
      out.Pairwise (fun a b => greater b a = false) :=
  ⟨greater_swo, by decide, by decide, union_order_law greater [[3, 2, 1]] greater_swo (by decide)⟩

/-- C4 (single-sequence identity): under an irreflexive comparator, the union of the single
sequence `s` yields exactly `s`, and after `s.length` calls of `increment` the iterator is the
end iterator. -/
theorem union_single_sequence [DecidableEq α] (compare : α → α → Bool) (s : List α)
    (hirr : ∀ a, compare a a = false) :
    union_elements compare [s] = some s ∧
    ∃ it, make_union_iterator compare [s] = some it ∧
      increment_times compare s.length it = some make_union_iterator_end := by
  cases s with
  | nil =>
    exact ⟨by simp [union_elements, make_union_iterator, empty, std_sort, total_size, iterate,
      equal_end_nil], [], by simp [make_union_iterator, empty, std_sort], rfl⟩
  | cons x t =>
    have hmk : make_union_iterator compare [x :: t] = some [x :: t] := by
      simp [make_union_iterator, empty, std_sort, ordered_insert]
    refine ⟨?_, [x :: t], hmk, increment_times_single compare hirr t x⟩
    simp only [union_elements, hmk]
    exact iterate_single compare hirr t x _ (by simp [total_size])

theorem union_single_sequence_witness :
    (∀ a, less a a = false) ∧
    union_elements less [[5, 5, 5]] = some [5, 5, 5] ∧
    ∃ it, make_union_iterator less [[5, 5, 5]] = some it ∧
      increment_times less [5, 5, 5].length it = some make_union_iterator_end :=
  ⟨less_swo.irrefl, union_single_sequence less [5, 5, 5] less_swo.irrefl⟩

/-- C5 (empty input): when every input sequence is empty (in particular when there is none),
the constructed iterator has an empty cursor collection, equals the end iterator, and the
iteration yields nothing. -/
theorem union_empty_input [DecidableEq α] (compare : α → α → Bool) (ranges : List (List α))
    (hempty : ∀ r ∈ ranges, r = []) :
    make_union_iterator compare ranges = some [] ∧
    (∀ it, make_union_iterator compare ranges = some it →
      equal it make_union_iterator_end = true) ∧
    union_elements compare ranges = some [] := by
  have hfilter : ranges.filter (fun range => !empty range) = [] := by
    rw [List.filter_eq_nil_iff]
    intro r hr
    rw [hempty r hr]
    simp [empty]
  have hmk : make_union_iterator compare ranges = some [] := by
    simp [make_union_iterator, hfilter, std_sort]
  refine ⟨hmk, ?_, ?_⟩
  · intro it hit
    rw [hmk] at hit
    cases hit
    exact equal_end_nil
  · simp only [union_elements, hmk]
    cases total_size ranges <;> simp [iterate, equal_end_nil]

theorem union_empty_input_witness :
    (∀ r ∈ [([] : List Nat), []], r = []) ∧
    make_union_iterator less [[], []] = some [] ∧
    (∀ it, make_union_iterator less [[], []] = some it →
      equal it make_union_iterator_end = true) ∧
    union_elements less [[], []] = some [] :=
  ⟨by decide, union_empty_input less [[], []] (by decide)⟩

/-- C6 (terminal representation): the end iterator has an empty cursor collection. Every
reachable state comes with the windows of all input ranges, each window being what is left of
its input behind the elements consumed from it; the cursor collection consists of the windows
that are not empty, so the state equals the end iterator exactly when its cursor collection is
empty, which is exactly when every window is empty, that is, when every element of every input
sequence has been consumed. -/
theorem union_terminal_representation [DecidableEq α] (compare : α → α → Bool)
    (ranges it windows : List (List α)) (h : StrictWeakOrder compare)
    (hr : ReachableWindows compare ranges it windows) :
    (make_union_iterator_end : List (List α)) = [] ∧
    Reachable compare ranges it ∧
    (∀ it', Reachable compare ranges it' →
      ∃ windows', ReachableWindows compare ranges it' windows') ∧
    List.Forall₂ (fun r w => ∃ consumed, r = consumed ++ w) ranges windows ∧
    it.Perm (windows.filter (fun w => !empty w)) ∧
    (equal it make_union_iterator_end = true ↔ it = []) ∧
    (it = [] ↔ ∀ w ∈ windows, w = []) ∧
    (it = [] ↔ total_size it = 0) := by
  have hreach := reachable_of_windows compare ranges it windows hr
  have hperm := windows_perm h ranges it windows hr
  refine ⟨rfl, hreach, fun it' hr' => windows_of_reachable compare ranges it' hr',
    windows_suffix compare ranges it windows hr, hperm,
    by simp [equal, make_union_iterator_end], ?_, ?_, ?_⟩
  · constructor
    · intro hit w hw
      rw [hit] at hperm
      have hnil := List.nil_perm.1 hperm
      cases w with
      | nil => rfl
      | cons x t =>
        have : (x :: t) ∈ windows.filter (fun w => !empty w) :=
          List.mem_filter.2 ⟨hw, rfl⟩
        rw [hnil] at this
        exact absurd this (List.not_mem_nil _)
    · intro hall
      have hnil : windows.filter (fun w => !empty w) = [] := by
        rw [List.filter_eq_nil_iff]
        intro w hw
        rw [hall w hw]
        simp [empty]
      rw [hnil] at hperm
      exact List.perm_nil.1 hperm
  · intro hit
    rw [hit]
    rfl
  · exact total_size_eq_zero (reachable_ne_nil compare ranges it hreach)

theorem union_terminal_representation_witness :
    StrictWeakOrder less ∧
    ReachableWindows less [[1], [], [1, 2]] [] [[], [], []] ∧
    ((make_union_iterator_end : List (List Nat)) = [] ∧
      Reachable less [[1], [], [1, 2]] [] ∧
      (∀ it', Reachable less [[1], [], [1, 2]] it' →
        ∃ windows', ReachableWindows less [[1], [], [1, 2]] it' windows') ∧
      List.Forall₂ (fun r w => ∃ consumed, r = consumed ++ w) [[1], [], [1, 2]]
        [[], [], []] ∧
      ([] : List (List Nat)).Perm ([[], [], []].filter (fun w => !empty w)) ∧
      (equal ([] : List (List Nat)) make_union_iterator_end = true ↔
        ([] : List (List Nat)) = []) ∧
      (([] : List (List Nat)) = [] ↔ ∀ w ∈ [([] : List Nat), [], []], w = []) ∧
      (([] : List (List Nat)) = [] ↔ total_size ([] : List (List Nat)) = 0)) ∧
    ((make_union_iterator_end : List (List Nat)) = [] ∧
      Reachable less [[1], [], [1, 2]] [[2]] ∧
      (∀ it', Reachable less [[1], [], [1, 2]] it' →
        ∃ windows', ReachableWindows less [[1], [], [1, 2]] it' windows') ∧
      List.Forall₂ (fun r w => ∃ consumed, r = consumed ++ w) [[1], [], [1, 2]]
        [[], [], [2]] ∧
      [[2]].Perm ([[], [], [2]].filter (fun w => !empty w)) ∧
      (equal [[2]] make_union_iterator_end = true ↔ [[2]] = ([] : List (List Nat))) ∧
      ([[2]] = ([] : List (List Nat)) ↔ ∀ w ∈ [[], [], [2]], w = []) ∧
      ([[2]] = ([] : List (List Nat)) ↔ total_size [[2]] = 0)) :=
  ⟨less_swo,
    ReachableWindows.step [[2]] [] [[], [], [2]] 2
      (ReachableWindows.step [[1], [1, 2]] [[2]] [[1], [], [1, 2]] 1
        (ReachableWindows.construct [[1], [1, 2]] (by decide)) (by decide) (by decide))
      (by decide) (by decide),
    union_terminal_representation less [[1], [], [1, 2]] [] [[], [], []] less_swo
      (ReachableWindows.step [[2]] [] [[], [], [2]] 2
        (ReachableWindows.step [[1], [1, 2]] [[2]] [[1], [], [1, 2]] 1
          (ReachableWindows.construct [[1], [1, 2]] (by decide)) (by decide) (by decide))
        (by decide) (by decide)),
    union_terminal_representation less [[1], [], [1, 2]] [[2]] [[], [], [2]] less_swo
      (ReachableWindows.step [[1], [1, 2]] [[2]] [[1], [], [1, 2]] 1
        (ReachableWindows.construct [[1], [1, 2]] (by decide)) (by decide) (by decide))⟩

/-- C7 (dereference yields the current minimum): for sorted inputs under a strict weak ordering,
in every reachable state that is not the end, `dereference` is defined and no element remaining
in any range is strictly less than the value it returns. -/
theorem union_dereference_least (compare : α → α → Bool) (ranges it : List (List α))
    (h : StrictWeakOrder compare) (hsorted : ∀ r ∈ ranges, is_sorted compare r = true)
    (hr : Reachable compare ranges it) (hne : it ≠ []) :
    ∃ m, dereference it = some m ∧ ∀ c ∈ it, ∀ x ∈ c, compare x m = false := by
  cases it with
  | nil => exact absurd rfl hne
  | cons c rest =>
    cases c with
    | nil => exact absurd rfl (reachable_ne_nil compare ranges _ hr [] (List.mem_cons_self _ _))
    | cons m t =>
      exact ⟨m, rfl, front_is_least h m t rest (reachable_ne_nil compare ranges _ hr)
        (reachable_sorted_by_front h ranges _ hr) (reachable_is_sorted h ranges _ hsorted hr)⟩

theorem union_dereference_least_witness :
    StrictWeakOrder less ∧ (∀ r ∈ [[1, 3, 3], [2, 3]], is_sorted less r = true) ∧
    Reachable less [[1, 3, 3], [2, 3]] [[2, 3], [3, 3]] ∧
    [[2, 3], [3, 3]] ≠ ([] : List (List Nat)) ∧
    ∃ m, dereference [[2, 3], [3, 3]] = some m ∧
      ∀ c ∈ [[2, 3], [3, 3]], ∀ x ∈ c, less x m = false :=
  ⟨less_swo, by decide,
    Reachable.step [[1, 3, 3], [2, 3]] _ (Reachable.construct [[1, 3, 3], [2, 3]] (by decide)) (by decide),
    by decide,
    union_dereference_least less [[1, 3, 3], [2, 3]] [[2, 3], [3, 3]] less_swo (by decide)
      (Reachable.step [[1, 3, 3], [2, 3]] _ (Reachable.construct [[1, 3, 3], [2, 3]] (by decide)) (by decide))
      (by decide)⟩

/-- C8 (counting_sort_impl sorts): when every key is below `value_range` and the output buffer
has room for the input, `counting_sort_impl` is defined and the first `n` positions of the
output hold a permutation of the input that is non-decreasing in the keys. -/
theorem counting_sort_impl_sorts (value_range : Nat) (map : α → Nat) (input result : List α)
    (hkeys : ∀ x ∈ input, map x < value_range) (hroom : input.length ≤ result.length) :
    ∃ sorted offset, counting_sort_impl value_range map input result = some (sorted, offset) ∧
      (sorted.take input.length).Perm input ∧
      (sorted.take input.length).Pairwise (fun a b => map a ≤ map b) := by
  obtain ⟨sorted, hsort, _, htake⟩ :=
    counting_sort_impl_spec value_range map input result hkeys hroom
  refine ⟨sorted, input.length, hsort, ?_, ?_⟩
  · rw [htake]
    have := by_keys_perm map value_range input
    rw [List.filter_eq_self.2 (fun x hx => by simpa using hkeys x hx)] at this
    exact this
  · rw [htake]
    exact by_keys_sorted map value_range input

theorem counting_sort_impl_sorts_witness :
    (∀ x ∈ [(2, 10), (0, 11), (2, 12), (1, 13)], Prod.fst x < 3) ∧
    [(2, 10), (0, 11), (2, 12), (1, 13)].length ≤ [(0, 0), (0, 0), (0, 0), (0, 0), (9, 9)].length ∧
    counting_sort_impl 3 Prod.fst [(2, 10), (0, 11), (2, 12), (1, 13)]
      [(0, 0), (0, 0), (0, 0), (0, 0), (9, 9)] =
      some ([(0, 11), (1, 13), (2, 10), (2, 12), (9, 9)], 4) ∧
    ∃ sorted offset, counting_sort_impl 3 Prod.fst [(2, 10), (0, 11), (2, 12), (1, 13)]
        [(0, 0), (0, 0), (0, 0), (0, 0), (9, 9)] = some (sorted, offset) ∧
      (sorted.take [(2, 10), (0, 11), (2, 12), (1, 13)].length).Perm
        [(2, 10), (0, 11), (2, 12), (1, 13)] ∧
      (sorted.take [(2, 10), (0, 11), (2, 12), (1, 13)].length).Pairwise
        (fun a b => Prod.fst a ≤ Prod.fst b) :=
  ⟨by decide, by decide, by decide,
    counting_sort_impl_sorts 3 Prod.fst [(2, 10), (0, 11), (2, 12), (1, 13)]
      [(0, 0), (0, 0), (0, 0), (0, 0), (9, 9)] (by decide) (by decide)⟩

/-- C9 (invariant I1): under a strict weak ordering, for every collection of input sequences,
sorted or not, the construction is defined, every state reachable by increments is sorted by
front value, and `increment` is defined on every reachable state that is not the end. -/
theorem union_cursors_sorted_by_front (compare : α → α → Bool) (ranges it : List (List α))
    (h : StrictWeakOrder compare) (hr : Reachable compare ranges it) :
    (∃ it₀, make_union_iterator compare ranges = some it₀ ∧ sorted_by_front compare it₀) ∧
    sorted_by_front compare it ∧
    (it ≠ [] → ∃ next, increment compare it = some next ∧ sorted_by_front compare next) := by
  refine ⟨?_, reachable_sorted_by_front h ranges it hr, ?_⟩
  · obtain ⟨it₀, hit₀, _, hs, _⟩ := make_union_iterator_spec h ranges
    exact ⟨it₀, hit₀, hs⟩
  · intro hne
    obtain ⟨next, hnext⟩ := reachable_increment_defined h ranges it hr hne
    exact ⟨next, hnext, reachable_sorted_by_front h ranges next (Reachable.step it next hr hnext)⟩

theorem union_cursors_sorted_by_front_witness :
    StrictWeakOrder less ∧ Reachable less [[2, 1], [], [1, 5, 0]] [[2, 1], [5, 0]] ∧
    (∃ it₀, make_union_iterator less [[2, 1], [], [1, 5, 0]] = some it₀ ∧
      sorted_by_front less it₀) ∧
    sorted_by_front less [[2, 1], [5, 0]] ∧
    ([[2, 1], [5, 0]] ≠ ([] : List (List Nat)) →
      ∃ next, increment less [[2, 1], [5, 0]] = some next ∧ sorted_by_front less next) :=
  ⟨less_swo,
    Reachable.step [[1, 5, 0], [2, 1]] _ (Reachable.construct [[1, 5, 0], [2, 1]] (by decide)) (by decide),
    union_cursors_sorted_by_front less [[2, 1], [], [1, 5, 0]] [[2, 1], [5, 0]] less_swo
      (Reachable.step [[1, 5, 0], [2, 1]] _ (Reachable.construct [[1, 5, 0], [2, 1]] (by decide)) (by decide))⟩

/-- C10 (invariant I2): for every collection of input sequences and every comparator, the
construction is defined and keeps exactly the non-empty input sequences, and no state reachable
by increments contains an empty range. -/
theorem union_no_empty_cursor (compare : α → α → Bool) (ranges it : List (List α))
    (hr : Reachable compare ranges it) :
    (∃ it₀, make_union_iterator compare ranges = some it₀ ∧
      it₀.Perm (ranges.filter (fun range => !empty range))) ∧
    ∀ c ∈ it, empty c = false := by
  constructor
  · obtain ⟨it₀, hit₀⟩ := make_union_iterator_defined compare ranges
    exact ⟨it₀, hit₀, make_union_iterator_perm compare ranges it₀ hit₀⟩
  · intro c hc
    have := reachable_ne_nil compare ranges it hr c hc
    cases c with
    | nil => exact absurd rfl this
    | cons x t => rfl

theorem union_no_empty_cursor_witness :
    Reachable less [[1], [], [1, 2]] [[2]] ∧
    (∃ it₀, make_union_iterator less [[1], [], [1, 2]] = some it₀ ∧
      it₀.Perm ([[1], [], [1, 2]].filter (fun range => !empty range))) ∧
    ∀ c ∈ [[2]], empty c = false :=
  ⟨Reachable.step [[1], [1, 2]] _ (Reachable.construct [[1], [1, 2]] (by decide)) (by decide),
    union_no_empty_cursor less [[1], [], [1, 2]] [[2]]
      (Reachable.step [[1], [1, 2]] _ (Reachable.construct [[1], [1, 2]] (by decide)) (by decide))⟩

/-- C11 (effect of one increment): on a state without empty ranges that is sorted by front,
with `m` the front of the first range, the search of `increment` selects a prefix of ranges
whose fronts are all equivalent to `m`, the ranges behind it all have a front strictly greater
than `m`, and the state after `increment` is a permutation of the tails of the prefix that are
not empty together with the unchanged ranges behind the prefix. -/
theorem union_increment_effect (compare : α → α → Bool) (m : α) (t : List α)
    (rest : List (List α)) (h : StrictWeakOrder compare)
    (hne : ∀ c ∈ (m :: t) :: rest, c ≠ [])
    (hs : sorted_by_front compare ((m :: t) :: rest)) :
    ∃ k next,
      upper_bound (compare_by_front_value compare) ((m :: t) :: rest) (m :: t) = some k ∧
      (∀ c ∈ ((m :: t) :: rest).take k, ∃ x u, c = x :: u ∧ equiv compare m x = true) ∧
      (∀ c ∈ ((m :: t) :: rest).drop k,
        ∃ x u, c = x :: u ∧ compare m x = true ∧ equiv compare m x = false) ∧
      increment compare ((m :: t) :: rest) = some next ∧
      next.Perm (((((m :: t) :: rest).take k).map List.tail).filter (fun range => !empty range)
        ++ ((m :: t) :: rest).drop k) := by
  obtain ⟨k, hub, _, htake, hdrop, _, hinc⟩ := increment_prefix_spec h m t rest hne hs
  have hdne : ∀ c ∈ ((m :: t) :: rest).drop k, c ≠ [] :=
    fun c hc => hne c (List.mem_of_mem_drop hc)
  obtain ⟨next, hnext, _⟩ := increment_spec h m t rest hne hs
  refine ⟨k, next, hub, htake, ?_, hnext, ?_⟩
  · intro c hc
    obtain ⟨x, u, hxu, hx⟩ := hdrop c hc
    exact ⟨x, u, hxu, hx, by simp [equiv, hx]⟩
  · rw [hinc] at hnext
    have := std_sort_perm _ _ _ hnext
    rw [filter_append_no_empty _ _ hdne] at this
    exact this

theorem union_increment_effect_witness :
    StrictWeakOrder less ∧ (∀ c ∈ [[1, 1, 2], [1, 2, 2], [1], [3, 4]], c ≠ []) ∧
    sorted_by_front less [[1, 1, 2], [1, 2, 2], [1], [3, 4]] ∧
    increment less [[1, 1, 2], [1, 2, 2], [1], [3, 4]] = some [[1, 2], [2, 2], [3, 4]] ∧
    ∃ k next,
      upper_bound (compare_by_front_value less) [[1, 1, 2], [1, 2, 2], [1], [3, 4]] [1, 1, 2] =
        some k ∧
      (∀ c ∈ [[1, 1, 2], [1, 2, 2], [1], [3, 4]].take k,
        ∃ x u, c = x :: u ∧ equiv less 1 x = true) ∧
      (∀ c ∈ [[1, 1, 2], [1, 2, 2], [1], [3, 4]].drop k,
        ∃ x u, c = x :: u ∧ less 1 x = true ∧ equiv less 1 x = false) ∧
      increment less [[1, 1, 2], [1, 2, 2], [1], [3, 4]] = some next ∧
      next.Perm ((([[1, 1, 2], [1, 2, 2], [1], [3, 4]].take k).map List.tail).filter
        (fun range => !empty range) ++ [[1, 1, 2], [1, 2, 2], [1], [3, 4]].drop k) :=
  ⟨less_swo, by decide, by unfold sorted_by_front; decide, by decide,
    union_increment_effect less 1 [1, 2] [[1, 2, 2], [1], [3, 4]] less_swo (by decide)
      (by unfold sorted_by_front; decide)⟩

/-- C12 (re-sort versus re-insert), as stated, fails: for pairs compared by their first
component and the sorted inputs `[(0,0),(1,10)]` and `[(1,11)]`, the iteration that sorts the
whole collection yields `(0,0),(1,10)` and the iteration that inserts the advanced range into
the untouched suffix yields `(0,0),(1,11)`. -/
theorem union_reinsert_equivalent_counterexample :
    StrictWeakOrder less_by_key ∧
    (∀ r ∈ [[(0, 0), (1, 10)], [(1, 11)]], is_sorted less_by_key r = true) ∧
    union_elements less_by_key [[(0, 0), (1, 10)], [(1, 11)]] = some [(0, 0), (1, 10)] ∧
    union_elements_reinsert less_by_key [[(0, 0), (1, 10)], [(1, 11)]] =
      some [(0, 0), (1, 11)] ∧
    union_elements less_by_key [[(0, 0), (1, 10)], [(1, 11)]] ≠
      union_elements_reinsert less_by_key [[(0, 0), (1, 10)], [(1, 11)]] :=
  ⟨less_by_key_swo, by decide, by decide, by decide, by decide⟩

/-- C12 (re-sort versus re-insert), amended: under a strict weak ordering, on every reachable
state that is not the end the increment that sorts the whole collection and the increment that
inserts the advanced ranges into the untouched suffix are both defined and return permutations
of each other that are sorted by front; the two iterations are defined and yield lists of the
same length whose elements are equivalent position by position, so that every class of
equivalent values has the same multiplicity in both; and when equivalent values are equal (a
strict total order) the two iterations yield the same list. -/
theorem union_reinsert_equivalent [DecidableEq α] (compare : α → α → Bool)
    (ranges : List (List α)) (h : StrictWeakOrder compare) :
    (∀ it, Reachable compare ranges it → it ≠ [] →
      ∃ next next', increment compare it = some next ∧
        increment_reinsert compare it = some next' ∧ next.Perm next' ∧
        sorted_by_front compare next ∧ sorted_by_front compare next') ∧
    ∃ out out', union_elements compare ranges = some out ∧
      union_elements_reinsert compare ranges = some out' ∧
      List.Forall₂ (fun a b => equiv compare a b = true) out out' ∧
      out.length = out'.length ∧
      (∀ v, count_equiv compare v out = count_equiv compare v out') ∧
      ((∀ a b, compare a b = false → compare b a = false → a = b) → out = out') := by
  constructor
  · intro it hr hne
    have hnn := reachable_ne_nil compare ranges it hr
    have hs := reachable_sorted_by_front h ranges it hr
    cases it with
    | nil => exact absurd rfl hne
    | cons c rest =>
      cases c with
      | nil => exact absurd rfl (hnn [] (List.mem_cons_self _ _))
      | cons m t =>
        obtain ⟨next, hinc, hperm, hsn, _⟩ := increment_spec h m t rest hnn hs
        obtain ⟨next', hinc', hperm', hsn', _⟩ := increment_reinsert_spec h m t rest hnn hs
        exact ⟨next, next', hinc, hinc', hperm.trans hperm'.symm, hsn, hsn'⟩
  · obtain ⟨it, hit, _, hs, hne⟩ := make_union_iterator_spec h ranges
    have hsize := total_size_make_union_iterator compare ranges it hit
    obtain ⟨out, out', hout, hout', hall⟩ := iterate_reinsert_equiv h (total_size ranges)
      (total_size ranges) it it hne hs hne hs (List.Perm.refl _) hsize hsize
    exact ⟨out, out', by simp [union_elements, hit, hout],
      by simp [union_elements_reinsert, hit, hout'], hall, hall.length_eq,
      fun v => count_equiv_of_forall₂ h v hall, fun htotal => eq_of_forall₂_equiv htotal hall⟩

theorem union_reinsert_equivalent_witness :
    StrictWeakOrder less_by_key ∧
    ((∀ it, Reachable less_by_key [[(0, 0), (1, 10)], [(1, 11)]] it → it ≠ [] →
      ∃ next next', increment less_by_key it = some next ∧
        increment_reinsert less_by_key it = some next' ∧ next.Perm next' ∧
        sorted_by_front less_by_key next ∧ sorted_by_front less_by_key next') ∧
    ∃ out out', union_elements less_by_key [[(0, 0), (1, 10)], [(1, 11)]] = some out ∧
      union_elements_reinsert less_by_key [[(0, 0), (1, 10)], [(1, 11)]] = some out' ∧
      List.Forall₂ (fun a b => equiv less_by_key a b = true) out out' ∧
      out.length = out'.length ∧
      (∀ v, count_equiv less_by_key v out = count_equiv less_by_key v out') ∧
      ((∀ a b, less_by_key a b = false → less_by_key b a = false → a = b) → out = out')) ∧
    StrictWeakOrder less ∧
    union_elements_reinsert less [[1, 1, 2], [1, 2, 2], [1]] = some [1, 1, 2, 2] ∧
    ((∀ it, Reachable less [[1, 1, 2], [1, 2, 2], [1]] it → it ≠ [] →
      ∃ next next', increment less it = some next ∧
        increment_reinsert less it = some next' ∧ next.Perm next' ∧
        sorted_by_front less next ∧ sorted_by_front less next') ∧
    ∃ out out', union_elements less [[1, 1, 2], [1, 2, 2], [1]] = some out ∧
      union_elements_reinsert less [[1, 1, 2], [1, 2, 2], [1]] = some out' ∧
      List.Forall₂ (fun a b => equiv less a b = true) out out' ∧
      out.length = out'.length ∧
      (∀ v, count_equiv less v out = count_equiv less v out') ∧
      ((∀ a b, less a b = false → less b a = false → a = b) → out = out')) :=
  ⟨less_by_key_swo,
    union_reinsert_equivalent less_by_key [[(0, 0), (1, 10)], [(1, 11)]] less_by_key_swo,
    less_swo, by decide,
    union_reinsert_equivalent less [[1, 1, 2], [1, 2, 2], [1]] less_swo⟩

/-- C13 (totality on valid states): under a strict weak ordering, in every reachable state that
is not the end the first range exists and is not empty, `dereference` is defined, the search of
`increment` is defined and selects a prefix that is not empty, every range of the prefix is not
empty and is advanced, and `increment` is defined. -/
theorem union_totality (compare : α → α → Bool) (ranges it : List (List α))
    (h : StrictWeakOrder compare) (hr : Reachable compare ranges it) (hne : it ≠ []) :
    ∃ first_range m k advanced next,
      it.head? = some first_range ∧ front first_range = some m ∧
      dereference it = some m ∧
      upper_bound (compare_by_front_value compare) it first_range = some k ∧ 0 < k ∧
      (∀ c ∈ it.take k, empty c = false) ∧
      for_each_advance (it.take k) = some advanced ∧
      increment compare it = some next := by
  have hnn := reachable_ne_nil compare ranges it hr
  have hs := reachable_sorted_by_front h ranges it hr
  cases it with
  | nil => exact absurd rfl hne
  | cons c rest =>
    cases c with
    | nil => exact absurd rfl (hnn [] (List.mem_cons_self _ _))
    | cons m t =>
      obtain ⟨k, hub, hk, _, _, hadv, _⟩ := increment_prefix_spec h m t rest hnn hs
      obtain ⟨next, hnext, _⟩ := increment_spec h m t rest hnn hs
      refine ⟨m :: t, m, k, _, next, rfl, rfl, rfl, hub, hk, ?_, hadv, hnext⟩
      intro c hc
      have := hnn c (List.mem_of_mem_take hc)
      cases c with
      | nil => exact absurd rfl this
      | cons x u => rfl

theorem union_totality_witness :
    StrictWeakOrder less ∧ Reachable less [[2, 1], [], [1, 5, 0]] [[2, 1], [5, 0]] ∧
    [[2, 1], [5, 0]] ≠ ([] : List (List Nat)) ∧
    ∃ first_range m k advanced next,
      [[2, 1], [5, 0]].head? = some first_range ∧ front first_range = some m ∧
      dereference [[2, 1], [5, 0]] = some m ∧
      upper_bound (compare_by_front_value less) [[2, 1], [5, 0]] first_range = some k ∧ 0 < k ∧
      (∀ c ∈ [[2, 1], [5, 0]].take k, empty c = false) ∧
      for_each_advance ([[2, 1], [5, 0]].take k) = some advanced ∧
      increment less [[2, 1], [5, 0]] = some next :=
  ⟨less_swo,
    Reachable.step [[1, 5, 0], [2, 1]] _ (Reachable.construct [[1, 5, 0], [2, 1]] (by decide))
      (by decide),
    by decide,
    union_totality less [[2, 1], [], [1, 5, 0]] [[2, 1], [5, 0]] less_swo
      (Reachable.step [[1, 5, 0], [2, 1]] _ (Reachable.construct [[1, 5, 0], [2, 1]] (by decide))
        (by decide))
      (by decide)⟩

/-- C14 (collect computes strict-less counts): when every key is below `value_range`, `collect`
on `value_range + 1` zeroed counters is defined, and every counter `i` holds the number of the
input elements whose key is less than `i`; the first counter is zero and the last one is the
number of the input elements. -/
theorem collect_counts_strictly_less (value_range : Nat) (map : α → Nat) (input : List α)
    (hkeys : ∀ x ∈ input, map x < value_range) :
    ∃ counters, collect map input (List.replicate (value_range + 1) 0) = some counters ∧
      counters.length = value_range + 1 ∧
      (∀ i ≤ value_range,
        counters[i]? = some (input.countP (fun x => decide (map x < i)))) ∧
      counters[0]? = some 0 ∧
      cback counters = some input.length := by
  obtain ⟨counters, hc, hlen, hval⟩ := collect_spec map value_range input hkeys
  refine ⟨counters, hc, hlen, hval, ?_, ?_⟩
  · rw [hval 0 (Nat.zero_le _)]
    simp
  · rw [cback, List.getLast?_eq_getElem?, hlen, Nat.add_sub_cancel, hval value_range (le_refl _),
      countP_lt_eq_length map input value_range hkeys]

theorem collect_counts_strictly_less_witness :
    (∀ x ∈ [(2, 10), (0, 11), (2, 12), (1, 13)], Prod.fst x < 3) ∧
    collect Prod.fst [(2, 10), (0, 11), (2, 12), (1, 13)] (List.replicate (3 + 1) 0) =
      some [0, 1, 2, 4] ∧
    ∃ counters, collect Prod.fst [(2, 10), (0, 11), (2, 12), (1, 13)]
        (List.replicate (3 + 1) 0) = some counters ∧
      counters.length = 3 + 1 ∧
      (∀ i ≤ 3, counters[i]? =
        some ([(2, 10), (0, 11), (2, 12), (1, 13)].countP (fun x => decide (Prod.fst x < i)))) ∧
      counters[0]? = some 0 ∧
      cback counters = some [(2, 10), (0, 11), (2, 12), (1, 13)].length :=
  ⟨by decide, by decide,
    collect_counts_strictly_less 3 Prod.fst [(2, 10), (0, 11), (2, 12), (1, 13)] (by decide)⟩

/-- C15 (termination): under a strict weak ordering, every `increment` on a reachable state
that is not the end is defined and strictly decreases the number of the remaining elements,
and the end iterator is reached after a number of increments that is at most the number of all
input elements and at least the length of every input sequence. -/
theorem union_termination [DecidableEq α] (compare : α → α → Bool)
    (ranges it : List (List α)) (h : StrictWeakOrder compare)
    (hr : Reachable compare ranges it) :
    (it ≠ [] → ∃ next, increment compare it = some next ∧ total_size next < total_size it) ∧
    ∃ it₀ n, make_union_iterator compare ranges = some it₀ ∧
      increment_times compare n it₀ = some make_union_iterator_end ∧
      (∀ k < n, ∃ s, increment_times compare k it₀ = some s ∧
        equal s make_union_iterator_end = false) ∧
      n ≤ total_size ranges ∧ ∀ r ∈ ranges, r.length ≤ n := by
  constructor
  · intro hne
    have hnn := reachable_ne_nil compare ranges it hr
    have hs := reachable_sorted_by_front h ranges it hr
    cases it with
    | nil => exact absurd rfl hne
    | cons c rest =>
      cases c with
      | nil => exact absurd rfl (hnn [] (List.mem_cons_self _ _))
      | cons m t =>
        obtain ⟨next, hnext, hperm, _⟩ := increment_spec h m t rest hnn hs
        refine ⟨next, hnext, ?_⟩
        rw [total_size_perm hperm]
        exact total_size_next_ranges_lt compare m t rest (h.irrefl m)
  · obtain ⟨it₀, hit, hperm, hs, hne⟩ := make_union_iterator_spec h ranges
    obtain ⟨out, hout, _⟩ := iterate_spec h (total_size ranges) it₀ hne hs
      (total_size_make_union_iterator compare ranges it₀ hit)
    obtain ⟨h1, h2⟩ := iterate_increment_times compare _ it₀ out hout
    refine ⟨it₀, out.length, hit, h1, h2, iterate_length_le_fuel compare _ it₀ out hout, ?_⟩
    intro r hr'
    cases r with
    | nil => simp
    | cons x u =>
      have hmem : (x :: u) ∈ it₀ :=
        hperm.mem_iff.2 (List.mem_filter.2 ⟨hr', by simp [empty]⟩)
      exact iterate_length_ge h _ it₀ out hne hs hout _ hmem

theorem union_termination_witness :
    StrictWeakOrder less ∧ Reachable less [[1, 3, 3], [2, 3]] [[2, 3], [3, 3]] ∧
    ([[2, 3], [3, 3]] ≠ ([] : List (List Nat)) →
      ∃ next, increment less [[2, 3], [3, 3]] = some next ∧
        total_size next < total_size [[2, 3], [3, 3]]) ∧
    ∃ it₀ n, make_union_iterator less [[1, 3, 3], [2, 3]] = some it₀ ∧
      increment_times less n it₀ = some make_union_iterator_end ∧
      (∀ k < n, ∃ s, increment_times less k it₀ = some s ∧
        equal s make_union_iterator_end = false) ∧
      n ≤ total_size [[1, 3, 3], [2, 3]] ∧ ∀ r ∈ [[1, 3, 3], [2, 3]], r.length ≤ n :=
  ⟨less_swo,
    Reachable.step [[1, 3, 3], [2, 3]] _ (Reachable.construct [[1, 3, 3], [2, 3]] (by decide))
      (by decide),
    union_termination less [[1, 3, 3], [2, 3]] [[2, 3], [3, 3]] less_swo
      (Reachable.step [[1, 3, 3], [2, 3]] _ (Reachable.construct [[1, 3, 3], [2, 3]] (by decide))
        (by decide))⟩

/-- C16 (independence of input order): under a strict total order, for sorted input sequences,
every collection with the same sequences as `ranges`, in particular every permutation of
`ranges` and `ranges` with some of its sequences duplicated, yields the same output. -/
theorem union_input_order_independent [DecidableEq α] (compare : α → α → Bool)
    (ranges ranges' : List (List α)) (h : StrictWeakOrder compare)
    (htotal : ∀ a b, compare a b = false → compare b a = false → a = b)
    (hsorted : ∀ r ∈ ranges, is_sorted compare r = true)
    (hsame : ∀ c, c ∈ ranges' ↔ c ∈ ranges) :
    ∃ out, union_elements compare ranges = some out ∧
      union_elements compare ranges' = some out := by
  obtain ⟨_, out, _, _, hout, _, hcount, hpair⟩ := union_elements_spec h ranges hsorted
  obtain ⟨_, out', _, _, hout', _, hcount', hpair'⟩ := union_elements_spec h ranges'
    (fun r hr => hsorted r ((hsame r).1 hr))
  have heq : out' = out := by
    apply sorted_eq_of_count_eq compare htotal out' out hpair' hpair
    intro v
    rw [← count_equiv_eq_count compare h.irrefl htotal, ← count_equiv_eq_count compare h.irrefl htotal,
      hcount v, hcount' v]
    exact max_count_same_ranges compare v hsame
  rw [heq] at hout'
  exact ⟨out, hout, hout'⟩

theorem union_input_order_independent_witness :
    StrictWeakOrder less ∧ (∀ a b, less a b = false → less b a = false → a = b) ∧
    (∀ r ∈ [[1, 3, 3], [2, 3]], is_sorted less r = true) ∧
    [[2, 3], [1, 3, 3], [2, 3]].Perm ([2, 3] :: [[1, 3, 3], [2, 3]]) ∧
    (∀ c, c ∈ [[2, 3], [1, 3, 3], [2, 3]] ↔ c ∈ [[1, 3, 3], [2, 3]]) ∧
    union_elements less [[2, 3], [1, 3, 3], [2, 3]] = some [1, 2, 3, 3] ∧
    ∃ out, union_elements less [[1, 3, 3], [2, 3]] = some out ∧
      union_elements less [[2, 3], [1, 3, 3], [2, 3]] = some out :=
  ⟨less_swo, by intro a b; simp only [less, decide_eq_false_iff_not]; omega, by decide,
    by decide, by intro c; simp; tauto, by decide,
    union_input_order_independent less [[1, 3, 3], [2, 3]] [[2, 3], [1, 3, 3], [2, 3]] less_swo
      (by intro a b; simp only [less, decide_eq_false_iff_not]; omega) (by decide)
      (by intro c; simp; tauto)⟩

/-- C17 (stability of counting_sort_impl): when every key is below `value_range` and the output
buffer has room for the input, for every key the elements with that key stand in the output in
the order in which they stand in the input. -/
theorem counting_sort_impl_stable (value_range : Nat) (map : α → Nat) (input result : List α)
    (hkeys : ∀ x ∈ input, map x < value_range) (hroom : input.length ≤ result.length) :
    ∃ sorted offset, counting_sort_impl value_range map input result = some (sorted, offset) ∧
      ∀ k, (sorted.take input.length).filter (fun x => decide (map x = k)) =
        input.filter (fun x => decide (map x = k)) := by
  obtain ⟨sorted, hsort, _, htake⟩ :=
    counting_sort_impl_spec value_range map input result hkeys hroom
  refine ⟨sorted, input.length, hsort, ?_⟩
  intro k
  rw [htake, filter_by_keys]
  split
  · rfl
  · rename_i hk
    symm
    rw [List.filter_eq_nil_iff]
    intro x hx
    have := hkeys x hx
    simp only [decide_eq_true_eq]
    omega

theorem counting_sort_impl_stable_witness :
    (∀ x ∈ [(2, 10), (0, 11), (2, 12), (1, 13), (2, 14)], Prod.fst x < 3) ∧
    [(2, 10), (0, 11), (2, 12), (1, 13), (2, 14)].length ≤
      [(0, 0), (0, 0), (0, 0), (0, 0), (0, 0)].length ∧
    counting_sort_impl 3 Prod.fst [(2, 10), (0, 11), (2, 12), (1, 13), (2, 14)]
      [(0, 0), (0, 0), (0, 0), (0, 0), (0, 0)] =
      some ([(0, 11), (1, 13), (2, 10), (2, 12), (2, 14)], 5) ∧
    ∃ sorted offset, counting_sort_impl 3 Prod.fst [(2, 10), (0, 11), (2, 12), (1, 13), (2, 14)]
        [(0, 0), (0, 0), (0, 0), (0, 0), (0, 0)] = some (sorted, offset) ∧
      ∀ k, (sorted.take [(2, 10), (0, 11), (2, 12), (1, 13), (2, 14)].length).filter
          (fun x => decide (Prod.fst x = k)) =
        [(2, 10), (0, 11), (2, 12), (1, 13), (2, 14)].filter (fun x => decide (Prod.fst x = k)) :=
  ⟨by decide, by decide, by decide,
    counting_sort_impl_stable 3 Prod.fst [(2, 10), (0, 11), (2, 12), (1, 13), (2, 14)]
      [(0, 0), (0, 0), (0, 0), (0, 0), (0, 0)] (by decide) (by decide)⟩

/-- C18 (output bounds of counting_sort_impl): when every key is below `value_range` and the
output buffer has room for the `n` input elements, the indices that `dispose` writes to are
pairwise distinct and are exactly the indices below `n`, the last counter has after `dispose`
the value it had before, and the returned iterator is `result + n`. -/
theorem counting_sort_impl_output_bounds (value_range : Nat) (map : α → Nat)
    (input result : List α)
    (hkeys : ∀ x ∈ input, map x < value_range) (hroom : input.length ≤ result.length) :
    ∃ counters sorted disposed indices,
      collect map input (List.replicate (value_range + 1) 0) = some counters ∧
      dispose map input result counters = some (sorted, disposed) ∧
      dispose_indices map input counters = some indices ∧
      sorted = write_all indices input result ∧
      indices.Nodup ∧ (∀ i, i ∈ indices ↔ i < input.length) ∧
      disposed[value_range]? = counters[value_range]? ∧
      counting_sort_impl value_range map input result = some (sorted, input.length) := by
  obtain ⟨counters, hcollect, hclen, hcval⟩ := collect_spec map value_range input hkeys
  have hinit : dispose_invariant map value_range input [] result counters := by
    refine ⟨hclen, ?_, ?_⟩
    · intro k hk
      rw [hcval k hk]
      simp
    · intro k _ j hj
      simp at hj
  obtain ⟨sorted, disposed, hd, _, hfinal⟩ := dispose_spec map value_range input hkeys
    input [] result counters rfl hroom hinit
  obtain ⟨indices, hi, hw⟩ := dispose_eq_write_all map input result counters sorted disposed hd
  obtain ⟨indices', hi', hilen, hnodup, hrange⟩ := dispose_indices_spec map value_range input
    hkeys input [] counters rfl hinit.2.1
  rw [hi] at hi'
  cases hi'
  obtain ⟨hlast, hcback⟩ := cback_disposed map value_range input sorted disposed hkeys hfinal
  have hsub : indices ⊆ List.range input.length := by
    intro i hi''
    obtain ⟨k, hk, _, hhi⟩ := hrange i hi''
    have h1 := countP_lt_succ map k input
    have h2 : input.countP (fun x => decide (map x < k + 1)) ≤ input.length :=
      List.countP_le_length _
    rw [List.mem_range]
    omega
  have hperm : indices.Perm (List.range input.length) :=
    (List.subperm_of_subset hnodup hsub).perm_of_length_le (by simp [hilen])
  refine ⟨counters, sorted, disposed, indices, hcollect, hd, hi, hw, hnodup, ?_, ?_, ?_⟩
  · intro i
    rw [hperm.mem_iff, List.mem_range]
  · rw [hlast, hcval value_range (le_refl _), countP_lt_eq_length map input value_range hkeys]
  · simp [counting_sort_impl, hcollect, hd, hcback]

theorem counting_sort_impl_output_bounds_witness :
    (∀ x ∈ [(2, 10), (0, 11), (2, 12), (1, 13)], Prod.fst x < 3) ∧
    [(2, 10), (0, 11), (2, 12), (1, 13)].length ≤ [(0, 0), (0, 0), (0, 0), (0, 0), (9, 9)].length ∧
    dispose_indices Prod.fst [(2, 10), (0, 11), (2, 12), (1, 13)] [0, 1, 2, 4] =
      some [2, 0, 3, 1] ∧
    ∃ counters sorted disposed indices,
      collect Prod.fst [(2, 10), (0, 11), (2, 12), (1, 13)] (List.replicate (3 + 1) 0) =
        some counters ∧
      dispose Prod.fst [(2, 10), (0, 11), (2, 12), (1, 13)]
        [(0, 0), (0, 0), (0, 0), (0, 0), (9, 9)] counters = some (sorted, disposed) ∧
      dispose_indices Prod.fst [(2, 10), (0, 11), (2, 12), (1, 13)] counters = some indices ∧
      sorted = write_all indices [(2, 10), (0, 11), (2, 12), (1, 13)]
        [(0, 0), (0, 0), (0, 0), (0, 0), (9, 9)] ∧
      indices.Nodup ∧ (∀ i, i ∈ indices ↔ i < [(2, 10), (0, 11), (2, 12), (1, 13)].length) ∧
      disposed[3]? = counters[3]? ∧
      counting_sort_impl 3 Prod.fst [(2, 10), (0, 11), (2, 12), (1, 13)]
        [(0, 0), (0, 0), (0, 0), (0, 0), (9, 9)] =
        some (sorted, [(2, 10), (0, 11), (2, 12), (1, 13)].length) :=
  ⟨by decide, by decide, by decide,
    counting_sort_impl_output_bounds 3 Prod.fst [(2, 10), (0, 11), (2, 12), (1, 13)]
      [(0, 0), (0, 0), (0, 0), (0, 0), (9, 9)] (by decide) (by decide)⟩

end burst
